import Mathlib

/-!
# Verification of the Text-to-SQL generation-and-safety pipeline

A shallow embedding of the core of the `Text-to-SQL` repository:

* `t2s/sql/safety.py` — candidate extraction (`extract_sql_candidate`),
  validation and limit rewriting (`validate_and_rewrite_select`) together with
  its helper predicates (`_is_select_statement`, `_strip_trailing_semicolons`,
  `_has_top_level_limit`) and the regex checks inlined in the function body;
* `t2s/security/rate_limit.py` — the sliding-window rate limiter
  (`check_rate_limit`);
* `t2s/logging/query_log.py` — the audit-log append (`log_event`);
* `ui/app.py` — the pre-execution guard (`_prepare_for_execute`).

Strings are modelled as `List Char`.  Python's `str.strip`, and the `\s`, `\w`
and `\d` character classes of its fixed regular expressions, are modelled over
ASCII (`pySpace`, `isWordChar`, `Char.isDigit`); each fixed regex of the source
is translated into an explicit scanner whose equivalence argument is given in
its doc comment.  The external SQL parser (`sqlglot.parse`) is not code of this
repository: following the spec's own interface boundary
(`parse_single_statement(text, dialect) -> Statement | fails`) it is a
parameter of type `SqlParser`; theorems quantify over it, and `sqlglotModel`
below instantiates it for concrete scenarios.  Clock time and the SQLite float
timestamps of the rate limiter are modelled as `ℚ`.
-/

namespace T2S

/-! ## Character classes

`pySpace` models Python's `\s` and `str.strip` whitespace on ASCII input
(space, tab, newline, carriage return, vertical tab, form feed); `isWordChar`
models `\w` on ASCII (`[A-Za-z0-9_]`). -/

def pySpace (c : Char) : Bool :=
  c == ' ' || c == '\t' || c == '\n' || c == '\r' || c == '\x0b' || c == '\x0c'

def isWordChar (c : Char) : Bool :=
  c.isAlpha || c.isDigit || c == '_'

/-! ## Trimming: Python `str.strip()` -/

def trimLeft (l : List Char) : List Char := l.dropWhile pySpace

def trimRight (l : List Char) : List Char := (l.reverse.dropWhile pySpace).reverse

def trim (l : List Char) : List Char := trimLeft (trimRight l)

/-! ## Case-insensitive literal matching

`matchCI pat l` holds when the lower-cased head of `l` starts with the
(lower-case) literal `pat`; it models matching a fixed alphabetic literal of a
`re.IGNORECASE` regex at the current position. -/

def matchCI : List Char → List Char → Bool
  | [], _ => true
  | _ :: _, [] => false
  | p :: ps, c :: cs => (c.toLower == p) && matchCI ps cs

/-- `occursCI pat l`: the literal `pat` matches (case-insensitively) at some
position of `l`.  Used only in theorem hypotheses ("the text contains no
LIMIT token anywhere"). -/
def occursCI (pat : List Char) : List Char → Bool
  | [] => matchCI pat []
  | c :: cs => matchCI pat (c :: cs) || occursCI pat cs

/-- Word boundary `\b` test against the character *preceding* the current
position (`none` = start of string). -/
def bdry : Option Char → Bool
  | none => true
  | some c => !isWordChar c

/-! ## `extract_sql_candidate` (safety.py lines 20–45)

```python
def extract_sql_candidate(text: str) -> str:
    if not text:
        return ""
    t = text.strip()
    if t.startswith("```"):
        t = re.sub(r"^```(?:sql)?\s*", "", t, flags=re.IGNORECASE)
        t = re.sub(r"\s*```\s*$", "", t)
        t = t.strip()
    t = re.sub(r"^(sql\s*:|query\s*:)", "", t, flags=re.IGNORECASE).strip()
    m = re.search(r"\b(SELECT|WITH)\b", t, flags=re.IGNORECASE)
    if m and m.start() > 0:
        t = t[m.start():].strip()
    semi = t.find(";")
    if semi != -1:
        t = t[: semi + 1].strip()
    return t
```
-/

/-- Three backquotes, the fenced-code-block marker. -/
def bq3 : List Char := ['\x60', '\x60', '\x60']

/-- `re.sub(r"^```(?:sql)?\s*", "", t)` on a `t` known to start with the three
backquotes: drop them, drop an optional case-insensitive `sql` tag, then drop
the following whitespace run.  (The optional group and `\s*` are greedy and
their continuations always succeed, so the maximal reading is the regex's.) -/
def removeOpenFence (t : List Char) : List Char :=
  let r := t.drop 3
  let r := if matchCI ['s', 'q', 'l'] r then r.drop 3 else r
  r.dropWhile pySpace

/-- `re.sub(r"\s*```\s*$", "", t)`.  The pattern is anchored at the end, so it
matches iff, after the trailing whitespace run, the text ends with three
backquotes; the leftmost match also swallows the maximal whitespace run
immediately before them.  When there is no such suffix the sub is a no-op. -/
def removeTrailingFence (t : List Char) : List Char :=
  let rv := t.reverse.dropWhile pySpace
  if bq3.isPrefixOf rv then ((rv.drop 3).dropWhile pySpace).reverse
  else t

/-- After a case-insensitive keyword of length `k` at the head, the label regex
requires `\s*` and then a literal `:`; returns the remainder after the colon,
or `none` when the regex does not match. -/
def labelColon (t : List Char) (k : Nat) : Option (List Char) :=
  match (t.drop k).dropWhile pySpace with
  | ':' :: rest => some rest
  | _ => none

/-- `re.sub(r"^(sql\s*:|query\s*:)", "", t, flags=re.IGNORECASE)`.  The two
alternatives start with different letters, so at most one applies. -/
def dropLabel (t : List Char) : List Char :=
  if matchCI ['s', 'q', 'l'] t then
    match labelColon t 3 with
    | some rest => rest
    | none => t
  else if matchCI ['q', 'u', 'e', 'r', 'y'] t then
    match labelColon t 5 with
    | some rest => rest
    | none => t
  else t

/-- A word-bounded case-insensitive literal at the current position:
the literal matches and the following character (if any) is not a word
character (`\b` on the right; `\b` on the left is the scanner's job). -/
def wordAtCI (w : List Char) (l : List Char) : Bool :=
  matchCI w l && bdry (l.drop w.length).head?

/-- Position test for `\b(SELECT|WITH)\b` (the left `\b` is checked by the
scanner via the preceding character). -/
def kwAt (l : List Char) : Bool :=
  wordAtCI ['s', 'e', 'l', 'e', 'c', 't'] l || wordAtCI ['w', 'i', 't', 'h'] l

/-- Scanner for `re.search(r"\b(SELECT|WITH)\b", t, re.IGNORECASE)`: the index
of the leftmost word-bounded match, tracking the preceding character for the
left `\b`. -/
def findKwAux : Option Char → List Char → Nat → Option Nat
  | _, [], _ => none
  | prev, c :: cs, i =>
    if bdry prev && kwAt (c :: cs) then some i
    else findKwAux (some c) cs (i + 1)

def findKw (l : List Char) : Option Nat := findKwAux none l 0

/-- `t.find(";")`: index of the first semicolon. -/
def findSemiAux : List Char → Nat → Option Nat
  | [], _ => none
  | c :: cs, i => if c == ';' then some i else findSemiAux cs (i + 1)

def findSemi (l : List Char) : Option Nat := findSemiAux l 0

/-- Lines 27–30: the fenced-code-block stripping, applied only when the text
starts with three backquotes. -/
def fenceStage (t : List Char) : List Char :=
  if bq3.isPrefixOf t then trim (removeTrailingFence (removeOpenFence t)) else t

/-- Lines 35–38: jump to the first word-bounded `SELECT`/`WITH` when it is not
already at the front. -/
def kwStage (t : List Char) : List Char :=
  match findKw t with
  | some i => if 0 < i then trim (t.drop i) else t
  | none => t

/-- Lines 40–43: keep only the text up to and including the first semicolon. -/
def semiStage (t : List Char) : List Char :=
  match findSemi t with
  | some i => trim (t.take (i + 1))
  | none => t

def extract_sql_candidate (text : List Char) : List Char :=
  if text = [] then []
  else semiStage (kwStage (trim (dropLabel (fenceStage (trim text)))))

/-! ## Validation helpers (safety.py lines 48–66) -/

/-- The shapes of `sqlglot` parse trees that the validator distinguishes:
the classes named in `_is_select_statement` plus the write/DDL statements the
repository's tests exercise; `other` stands for any further expression class. -/
inductive SqlAst where
  | select
  | union
  | intersect
  | exceptOp
  | withExpr (this : SqlAst)
  | insert
  | update
  | delete
  | drop
  | alter
  | create
  | other
deriving DecidableEq

/--
```python
def _is_select_statement(tree: exp.Expression) -> bool:
    if isinstance(tree, exp.Select):
        return True
    if isinstance(tree, exp.With):
        return isinstance(tree.this, (exp.Select, exp.Union, exp.Intersect, exp.Except))
    if isinstance(tree, (exp.Union, exp.Intersect, exp.Except)):
        return True
    return False
```
-/
def is_select_statement : SqlAst → Bool
  | .select => true
  | .withExpr t =>
    match t with
    | .select | .union | .intersect | .exceptOp => true
    | _ => false
  | .union => true
  | .intersect => true
  | .exceptOp => true
  | _ => false

/-- `re.sub(r";+\s*$", "", sql.strip())`.  On an already-stripped string the
trailing whitespace run is empty, so the leftmost match of `;+\s*$` is exactly
the maximal trailing run of semicolons (the run may expose whitespace that was
protected by a final semicolon; the source keeps it, and so do we). -/
def stripTrailingSemicolons (sql : List Char) : List Char :=
  ((trim sql).reverse.dropWhile (fun c => c == ';')).reverse

/-- Decimal digits of a natural number, most significant first, as Python's
`f"{default_limit}"` renders a non-negative int.  Fuel-based so that it
evaluates by kernel reduction; `n + 1` units of fuel always suffice. -/
def natToCharsCore : Nat → Nat → List Char → List Char
  | 0, _, acc => acc
  | fuel + 1, n, acc =>
    if n < 10 then Char.ofNat (48 + n) :: acc
    else natToCharsCore fuel (n / 10) (Char.ofNat (48 + n % 10) :: acc)

def natToChars (n : Nat) : List Char := natToCharsCore (n + 1) n []

/-- Position test for `\bLIMIT\b\s*$` (safety.py line 95): the word `LIMIT`
followed only by whitespace up to the end of the string.  The right `\b` is
implied because the next character, if any, is whitespace. -/
def danglingLimitAt (l : List Char) : Bool :=
  matchCI ['l', 'i', 'm', 'i', 't'] l && (l.drop 5).all pySpace

/-- Scanner for `re.search(r"\bLIMIT\b\s*$", s, re.IGNORECASE)`. -/
def danglingLimitAux : Option Char → List Char → Bool
  | _, [] => false
  | prev, c :: cs => (bdry prev && danglingLimitAt (c :: cs)) || danglingLimitAux (some c) cs

def danglingLimit (s : List Char) : Bool := danglingLimitAux none s

/-- `re.sub(r"\bLIMIT\b\s*$", f"LIMIT {default_limit}", s, re.IGNORECASE)`
(safety.py line 96): the single possible match runs from the final word-bounded
`LIMIT` to the end of the string, and is replaced by `LIMIT <default_limit>`. -/
def replaceDanglingLimitAux (d : Nat) : Option Char → List Char → List Char
  | _, [] => []
  | prev, c :: cs =>
    if bdry prev && danglingLimitAt (c :: cs) then
      'L' :: 'I' :: 'M' :: 'I' :: 'T' :: ' ' :: natToChars d
    else c :: replaceDanglingLimitAux d (some c) cs

def replaceDanglingLimit (s : List Char) (d : Nat) : List Char :=
  replaceDanglingLimitAux d none s

/-- Position test for `\bLIMIT\b\s+\d+` (safety.py line 100, searched anywhere
in the string): word-bounded `LIMIT`, at least one whitespace, at least one
digit. -/
def limitNumAt (l : List Char) : Bool :=
  matchCI ['l', 'i', 'm', 'i', 't'] l &&
    ((l.drop 5).head?.any pySpace) &&
    (((l.drop 5).dropWhile pySpace).head?.any Char.isDigit)

/-- Scanner for `re.search(r"\bLIMIT\b\s+\d+", s, re.IGNORECASE)`. -/
def containsLimitNumAux : Option Char → List Char → Bool
  | _, [] => false
  | prev, c :: cs => (bdry prev && limitNumAt (c :: cs)) || containsLimitNumAux (some c) cs

def containsLimitNum (s : List Char) : Bool := containsLimitNumAux none s

/-- `LIMIT` read backwards, with the right-`\b` test against the character
*before* it in reading order. -/
def revLimitWordAt (r : List Char) : Bool :=
  matchCI ['t', 'i', 'm', 'i', 'l'] r && bdry (r.drop 5).head?

/-!
```python
def _has_top_level_limit(sql_no_sc: str) -> bool:
    return bool(
        re.search(r"\bLIMIT\b\s+\d+\s*(?:\bOFFSET\b\s+\d+\s*)?$", sql_no_sc, flags=re.IGNORECASE)
    )
```
The pattern is anchored at `$`, so it matches iff a suffix of the string has
the shape `LIMIT \s+ \d+ \s*` optionally followed by `OFFSET \s+ \d+ \s*`,
with `\b` on both sides of each keyword.  Reading the string from the end the
match is deterministic: each `\s*`/`\s+`/`\d+` block is forced to be maximal
because the token that follows it begins with a character of a different
class.  `revTopLimit` is that backward reading; the inner `\b`s before a
keyword force at least one whitespace after the preceding digits (a digit is a
word character), which is why every keyword is preceded by a checked
whitespace. -/
/-- One backward block `\s+ \d+ \s*` (read right to left: a possibly empty
whitespace run, a nonempty digit run, then at least one whitespace — the
latter also discharging the `\b` before the digits' keyword); returns the
remaining reversed text after the block, or `none` if the block is absent. -/
def revChunk (r : List Char) : Option (List Char) :=
  if ((r.dropWhile pySpace).takeWhile Char.isDigit).isEmpty then none
  else
    if ((r.dropWhile pySpace).dropWhile Char.isDigit).head?.any pySpace then
      some (((r.dropWhile pySpace).dropWhile Char.isDigit).dropWhile pySpace)
    else none

def revTopLimit (r : List Char) : Bool :=
  match revChunk r with
  | none => false
  | some r2 =>
    revLimitWordAt r2 ||
      (matchCI ['t', 'e', 's', 'f', 'f', 'o'] r2 && ((r2.drop 6).head?.any pySpace) &&
        match revChunk (r2.drop 6) with
        | none => false
        | some r6 => revLimitWordAt r6)

def hasTopLevelLimit (s : List Char) : Bool := revTopLimit s.reverse

/-- The text appended by `f"{s} LIMIT {default_limit}"` (safety.py line 101). -/
def limitTail (d : Nat) : List Char :=
  ' ' :: 'L' :: 'I' :: 'M' :: 'I' :: 'T' :: ' ' :: natToChars d

/-! ## `validate_and_rewrite_select` (safety.py lines 69–108) -/

structure SafeSQLResult where
  sql : List Char
  limit_added : Bool
deriving DecidableEq

/-- The spec's `SafetyError` subtypes; each constructor corresponds to one
`raise SQLSafetyError(...)` site of `validate_and_rewrite_select`:
`emptyInput` = "Empty SQL produced by provider.", `parseError` = "SQL parse
error: …", `multipleStatements` = "Only a single SQL statement is allowed.",
`emptyStatement` = "SQL parse produced no statement.", `notReadOnly` = "Only
SELECT queries are allowed.". -/
inductive SQLSafetyError where
  | emptyInput
  | parseError (msg : List Char)
  | multipleStatements
  | emptyStatement
  | notReadOnly
deriving DecidableEq

/-- Interface of the external `sqlglot.parse(candidate, read=dialect)` call:
either a parse failure or the list of parsed statements, each possibly `None`
(the source guards `if tree is None`). -/
abbrev SqlParser := List Char → Except (List Char) (List (Option SqlAst))

/--
```python
def validate_and_rewrite_select(sql, *, dialect="sqlite", default_limit=100):
    candidate = extract_sql_candidate(sql)
    if not candidate:
        raise SQLSafetyError("Empty SQL produced by provider.")
    try:
        statements = sqlglot.parse(candidate, read=dialect)
    except Exception as e:
        raise SQLSafetyError(f"SQL parse error: {e}") from e
    if len(statements) != 1:
        raise SQLSafetyError("Only a single SQL statement is allowed.")
    tree = statements[0]
    if tree is None:
        raise SQLSafetyError("SQL parse produced no statement.")
    if not _is_select_statement(tree):
        raise SQLSafetyError("Only SELECT queries are allowed.")
    s = _strip_trailing_semicolons(candidate)
    limit_added = False
    if re.search(r"\bLIMIT\b\s*$", s, flags=re.IGNORECASE):
        s = re.sub(r"\bLIMIT\b\s*$", f"LIMIT {default_limit}", s, flags=re.IGNORECASE)
        limit_added = True
    if not _has_top_level_limit(s) and not re.search(r"\bLIMIT\b\s+\d+", s, flags=re.IGNORECASE):
        s = f"{s} LIMIT {default_limit}"
        limit_added = True
    safe_sql = s.strip()
    if not safe_sql.endswith(";"):
        safe_sql += ";"
    return SafeSQLResult(sql=safe_sql, limit_added=limit_added)
```
The limit-rewriting block (lines 90–108, the spec's `enforce_limit` stage) is
factored out as `enforce_limit`; `validate_and_rewrite_select` composes the
checks of lines 70–88 with it. -/
def enforce_limit (candidate : List Char) (default_limit : Nat) : SafeSQLResult :=
  let s0 := stripTrailingSemicolons candidate
  let rep := danglingLimit s0
  let s1 := if rep then replaceDanglingLimit s0 default_limit else s0
  let app := !hasTopLevelLimit s1 && !containsLimitNum s1
  let s2 := if app then s1 ++ limitTail default_limit else s1
  let la := if app then true else rep
  let safe0 := trim s2
  let safe := if safe0.getLast? = some ';' then safe0 else safe0 ++ [';']
  ⟨safe, la⟩

def validate_and_rewrite_select (parse : SqlParser) (sql : List Char)
    (default_limit : Nat) : Except SQLSafetyError SafeSQLResult :=
  let candidate := extract_sql_candidate sql
  if candidate = [] then .error .emptyInput
  else
    match parse candidate with
    | .error e => .error (.parseError e)
    | .ok statements =>
      match statements with
      | [some tree] =>
        if is_select_statement tree = false then .error .notReadOnly
        else .ok (enforce_limit candidate default_limit)
      | [none] => .error .emptyStatement
      | _ => .error .multipleStatements

/-! ## `_prepare_for_execute` (ui/app.py lines 411–416)

```python
def _prepare_for_execute(sql: str) -> str:
    s = (sql or "").strip()
    s = re.sub(r";+\s*$", "", s)
    if ";" in s:
        raise ValueError("Multiple statements detected (semicolon in the middle).")
    return s
```
The strip-then-sub composite is the same as `_strip_trailing_semicolons`. -/
def prepare_for_execute (sql : List Char) : Except (List Char) (List Char) :=
  let s := stripTrailingSemicolons sql
  if ';' ∈ s then .error ("Multiple statements detected (semicolon in the middle).".toList)
  else .ok s

/-! ## Rate limiter (t2s/security/rate_limit.py)

```python
def check_rate_limit(key: str, *, max_requests: int, window_sec: int):
    if max_requests <= 0 or window_sec <= 0:
        return True, 0.0
    now = time.time()
    with _LOCK:
        hits = _HITS.get(key, [])
        cutoff = now - float(window_sec)
        hits = [t for t in hits if t >= cutoff]
        if len(hits) >= int(max_requests):
            retry_after = float(window_sec) - (now - hits[0])
            _HITS[key] = hits
            return False, max(0.0, retry_after)
        hits.append(now)
        _HITS[key] = hits
        return True, 0.0
```
The process-wide dict `_HITS` is modelled as an association list, `time.time()`
as an explicit `now : ℚ` argument, and the float timestamps as rationals; the
lock serialises each call, so one call is one pure state transition. -/

abbrev RLState := List (List Char × List ℚ)

/-- `_HITS.get(key, [])`. -/
def lookupHits (m : RLState) (key : List Char) : List ℚ :=
  match List.lookup key m with
  | some v => v
  | none => []

/-- `_HITS[key] = v`. -/
def setHits (m : RLState) (key : List Char) (v : List ℚ) : RLState :=
  match m with
  | [] => [(key, v)]
  | (k, w) :: rest => if k = key then (key, v) :: rest else (k, w) :: setHits rest key v

def check_rate_limit (m : RLState) (key : List Char) (now : ℚ)
    (max_requests window_sec : Int) : (Bool × ℚ) × RLState :=
  if max_requests ≤ 0 ∨ window_sec ≤ 0 then ((true, 0), m)
  else
    let cutoff := now - (window_sec : ℚ)
    let hits := (lookupHits m key).filter (fun t => cutoff ≤ t)
    if max_requests ≤ (hits.length : Int) then
      let retry := (window_sec : ℚ) - (now - hits.headD 0)
      ((false, max 0 retry), setHits m key hits)
    else ((true, 0), setHits m key (hits ++ [now]))

/-- A sequence of `check_rate_limit` calls for one key at the given times,
returning the list of admission decisions and the final state. -/
def runKeyChecks (m : RLState) (key : List Char) (times : List ℚ)
    (max_requests window_sec : Int) : List Bool × RLState :=
  match times with
  | [] => ([], m)
  | t :: rest =>
    let r1 := check_rate_limit m key t max_requests window_sec
    let r2 := runKeyChecks r1.2 key rest max_requests window_sec
    (r1.1.1 :: r2.1, r2.2)

/-! ## Audit log append (t2s/logging/query_log.py lines 48–93)

`log_event` builds a row from its arguments and runs `_init_db()` followed by
a SQLite `INSERT` inside `try:/finally: conn.close()`.  There is **no**
`except` handler anywhere in the function, so the embedding represents the
two effectful steps by their outcomes and `log_event` by how it combines
them: any failure of either step is returned to the caller unchanged. -/

inductive DbError where
  | failure (msg : List Char)
deriving DecidableEq

structure QueryLogRecord where
  provider : List Char
  model : List Char
  db_path : List Char
  dialect : List Char
  question : List Char
  raw_sql : List Char
  cleaned_sql : List Char
  safe_sql : List Char
  limit_added : Bool
  row_count : Option Int
  exec_ms : Option ℚ
  error : Option (List Char)

def log_event (initDb : Except DbError Unit)
    (insertRecord : QueryLogRecord → Except DbError Int)
    (record : QueryLogRecord) : Except DbError Int :=
  match initDb with
  | .error e => .error e
  | .ok _ =>
    match insertRecord record with
    | .error e => .error e
    | .ok rowid => .ok rowid

/-! ## A concrete model of `sqlglot.parse`

Used only to instantiate the abstract `SqlParser` in concrete scenarios
(witnesses and counterexamples).  It mirrors the two facts about
`sqlglot.parse` those scenarios rely on: the token stream is split into
statements at semicolons, a final semicolon not opening a new statement; and
each simple statement is classified by its leading keyword (`SELECT` →
`exp.Select`, `WITH …` → `exp.With` over a select body, and the write/DDL
keywords to their classes). -/

def splitSemisAux : List Char → List Char → List (List Char)
  | [], acc => [acc.reverse]
  | c :: cs, acc =>
    if c == ';' then acc.reverse :: splitSemisAux cs []
    else splitSemisAux cs (c :: acc)

def splitSemis (l : List Char) : List (List Char) := splitSemisAux l []

def firstWord (l : List Char) : List Char :=
  ((trim l).takeWhile isWordChar).map Char.toLower

def classifyStatement (l : List Char) : Except (List Char) SqlAst :=
  let w := firstWord l
  if w = "select".toList then .ok .select
  else if w = "with".toList then .ok (.withExpr .select)
  else if w = "insert".toList then .ok .insert
  else if w = "update".toList then .ok .update
  else if w = "delete".toList then .ok .delete
  else if w = "drop".toList then .ok .drop
  else if w = "alter".toList then .ok .alter
  else if w = "create".toList then .ok .create
  else .error ("SQL parse error".toList)

def sqlglotModel : SqlParser := fun text =>
  let segs := splitSemis text
  let segs := (segs.reverse.dropWhile (fun s => s.all pySpace)).reverse
  segs.mapM (fun s => (classifyStatement s).map some)

/-! ## Character facts -/

theorem pySpace_toLower {c : Char} (h : pySpace c = true) : c.toLower = c := by
  unfold pySpace at h
  simp only [Bool.or_eq_true, beq_iff_eq] at h
  rcases h with ((((h | h) | h) | h) | h) | h <;> subst h <;> decide

theorem pySpace_of_isDigit {c : Char} (h : c.isDigit = true) : pySpace c = false := by
  by_contra hc
  rw [Bool.not_eq_false] at hc
  unfold pySpace at hc
  simp only [Bool.or_eq_true, beq_iff_eq] at hc
  rcases hc with ((((h' | h') | h') | h') | h') | h' <;> subst h' <;> simp at h

theorem ne_semi_of_isDigit {c : Char} (h : c.isDigit = true) : c ≠ ';' := by
  rintro rfl; simp at h

theorem toLower_of_isDigit {c : Char} (h : c.isDigit = true) : c.toLower = c := by
  obtain ⟨h1, h2⟩ : 48 ≤ c.toNat ∧ c.toNat ≤ 57 := by simpa [Char.isDigit] using h
  unfold Char.toLower
  rw [if_neg]
  intro hc
  omega

theorem ofNat_digit_isDigit {n : Nat} (h : n < 10) : (Char.ofNat (48 + n)).isDigit = true := by
  interval_cases n <;> decide

/-! ## `natToChars` facts -/

theorem natToCharsCore_succ (f n : Nat) (acc : List Char) :
    natToCharsCore (f + 1) n acc =
      if n < 10 then Char.ofNat (48 + n) :: acc
      else natToCharsCore f (n / 10) (Char.ofNat (48 + n % 10) :: acc) := rfl

theorem natToCharsCore_mem :
    ∀ (f n : Nat) (acc : List Char) (c : Char), c ∈ natToCharsCore f n acc →
      c ∈ acc ∨ c.isDigit = true := by
  intro f
  induction f with
  | zero => intro n acc c hc; exact .inl hc
  | succ f ih =>
    intro n acc c hc
    rw [natToCharsCore_succ] at hc
    by_cases hn : n < 10
    · rw [if_pos hn, List.mem_cons] at hc
      rcases hc with hc | hc
      · subst hc; exact .inr (ofNat_digit_isDigit (by omega))
      · exact .inl hc
    · rw [if_neg hn] at hc
      rcases ih _ _ _ hc with hc' | hc'
      · rw [List.mem_cons] at hc'
        rcases hc' with hc'' | hc''
        · subst hc''; exact .inr (ofNat_digit_isDigit (Nat.mod_lt _ (by omega)))
        · exact .inl hc''
      · exact .inr hc'

theorem natToChars_digits {n : Nat} {c : Char} (hc : c ∈ natToChars n) : c.isDigit = true := by
  rcases natToCharsCore_mem _ _ _ _ hc with h | h
  · simp at h
  · exact h

theorem natToCharsCore_ne_nil :
    ∀ (f n : Nat) (acc : List Char), acc ≠ [] → natToCharsCore f n acc ≠ [] := by
  intro f
  induction f with
  | zero => intro n acc h; exact h
  | succ f ih =>
    intro n acc h
    unfold natToCharsCore
    split
    · simp
    · exact ih _ _ (by simp)

theorem natToChars_ne_nil (n : Nat) : natToChars n ≠ [] := by
  unfold natToChars natToCharsCore
  split
  · simp
  · exact natToCharsCore_ne_nil _ _ _ (by simp)

/-! ## Generic list helpers -/

theorem dropWhile_decomp (p : Char → Bool) (l : List Char) :
    ∃ u, l = u ++ l.dropWhile p ∧ ∀ c ∈ u, p c = true :=
  ⟨l.takeWhile p, (List.takeWhile_append_dropWhile p l).symm,
    fun _ hc => List.mem_takeWhile_imp hc⟩

theorem dropWhile_head_false {p : Char → Bool} {l : List Char} {c : Char} {cs : List Char}
    (h : l.dropWhile p = c :: cs) : p c = false := by
  induction l with
  | nil => simp at h
  | cons a as ih =>
    rw [List.dropWhile_cons] at h
    by_cases ha : p a
    · rw [if_pos ha] at h; exact ih h
    · rw [if_neg ha] at h
      obtain ⟨rfl, -⟩ := List.cons.inj h
      exact Bool.not_eq_true _ ▸ Bool.eq_false_iff.mpr ha

theorem dropWhile_eq_self_of_head {p : Char → Bool} {c : Char} {cs : List Char}
    (h : p c = false) : (c :: cs).dropWhile p = c :: cs := by
  rw [List.dropWhile_cons, if_neg (by simp [h])]

theorem dropWhile_eq_self_of_all {p : Char → Bool} {l : List Char}
    (h : ∀ c ∈ l, p c = false) : l.dropWhile p = l := by
  cases l with
  | nil => rfl
  | cons c cs => exact dropWhile_eq_self_of_head (h c (by simp))

theorem dropWhile_append_nfirst {p : Char → Bool} {a : List Char} (b : List Char)
    (h : a.dropWhile p ≠ []) : (a ++ b).dropWhile p = a.dropWhile p ++ b := by
  rw [List.dropWhile_append, if_neg (by simpa using h)]

theorem dropWhile_append_all {p : Char → Bool} {a : List Char} (b : List Char)
    (h : ∀ c ∈ a, p c = true) : (a ++ b).dropWhile p = b.dropWhile p := by
  rw [List.dropWhile_append, if_pos (by simp [List.dropWhile_eq_nil_iff.mpr h])]

theorem getLast?_of_ne_nil {l : List Char} (h : l ≠ []) :
    ∃ c, l.getLast? = some c ∧ c ∈ l :=
  ⟨l.getLast h, List.getLast?_eq_getLast l h, List.getLast_mem h⟩

/-! ## `trim` facts -/

theorem trimRight_decomp (l : List Char) :
    ∃ z, l = trimRight l ++ z ∧ ∀ c ∈ z, pySpace c = true := by
  obtain ⟨u, hu, hall⟩ := dropWhile_decomp pySpace l.reverse
  refine ⟨u.reverse, ?_, fun c hc => hall c (by simpa using hc)⟩
  unfold trimRight
  conv_lhs => rw [← l.reverse_reverse, hu]
  rw [List.reverse_append]

theorem trim_decomp (l : List Char) :
    ∃ a z, (∀ c ∈ a, pySpace c = true) ∧ (∀ c ∈ z, pySpace c = true) ∧
      l = a ++ trim l ++ z := by
  obtain ⟨z, hz, hzall⟩ := trimRight_decomp l
  obtain ⟨a, ha, haall⟩ := dropWhile_decomp pySpace (trimRight l)
  refine ⟨a, z, haall, hzall, ?_⟩
  have heq : trim l = (trimRight l).dropWhile pySpace := rfl
  rw [heq, ← ha, ← hz]

theorem mem_trim {l : List Char} {c : Char} (h : c ∈ trim l) : c ∈ l := by
  obtain ⟨a, z, -, -, hl⟩ := trim_decomp l
  rw [hl]; simp [h]

theorem trim_head_false {l : List Char} {c : Char} {cs : List Char}
    (h : trim l = c :: cs) : pySpace c = false :=
  dropWhile_head_false (p := pySpace) (l := trimRight l) h

theorem trimRight_getLast {l : List Char} (h : trimRight l ≠ []) :
    ∃ c, (trimRight l).getLast? = some c ∧ pySpace c = false := by
  unfold trimRight at *
  rcases hd : l.reverse.dropWhile pySpace with _ | ⟨c, cs⟩
  · exact absurd (by simp [hd]) h
  · refine ⟨c, ?_, dropWhile_head_false hd⟩
    rw [List.getLast?_reverse]
    rfl

theorem trimRight_eq_self {l : List Char} {c : Char} (hc : l.getLast? = some c)
    (hw : pySpace c = false) : trimRight l = l := by
  unfold trimRight
  rw [← List.head?_reverse] at hc
  rcases hr : l.reverse with _ | ⟨a, as⟩
  · simp_all
  · rw [hr] at hc
    obtain rfl : a = c := by simpa using hc
    rw [dropWhile_eq_self_of_head hw, ← hr, List.reverse_reverse]

theorem trim_getLast {l : List Char} (h : trim l ≠ []) :
    ∃ c, (trim l).getLast? = some c ∧ pySpace c = false ∧
      (trimRight l).getLast? = some c := by
  unfold trim trimLeft at *
  obtain ⟨u, hu, -⟩ := dropWhile_decomp pySpace (trimRight l)
  have hR : trimRight l ≠ [] := by
    intro h0; rw [h0] at hu
    have : (trimRight l).dropWhile pySpace = [] := by
      rw [h0]; rfl
    exact h this
  obtain ⟨c, hc, hw⟩ := trimRight_getLast hR
  refine ⟨c, ?_, hw, hc⟩
  rw [hu] at hc
  rwa [List.getLast?_append_of_ne_nil u h] at hc

theorem trim_idem (l : List Char) : trim (trim l) = trim l := by
  rcases ht : trim l with _ | ⟨c, cs⟩
  · rfl
  · have hhead : pySpace c = false := trim_head_false ht
    have hne : trim l ≠ [] := by rw [ht]; simp
    obtain ⟨d, hd, hw, -⟩ := trim_getLast hne
    rw [ht] at hd
    have h1 : trim (c :: cs) = trimLeft (c :: cs) := by
      unfold trim
      rw [trimRight_eq_self hd hw]
    rw [h1, trimLeft, dropWhile_eq_self_of_head hhead]

theorem trim_getLast_of_last {l : List Char} {c : Char} (hc : l.getLast? = some c)
    (hw : pySpace c = false) : trim l ≠ [] ∧ (trim l).getLast? = some c := by
  unfold trim
  rw [trimRight_eq_self hc hw]
  obtain ⟨u, hu, hall⟩ := dropWhile_decomp pySpace l
  have hne : l.dropWhile pySpace ≠ [] := by
    intro h0
    rw [h0, List.append_nil] at hu
    have hcm : c ∈ l := List.mem_of_mem_getLast? hc
    rw [hall c (hu ▸ hcm)] at hw
    exact Bool.true_eq_false ▸ hw.symm ▸ rfl
  constructor
  · exact hne
  · rw [hu] at hc
    rwa [List.getLast?_append_of_ne_nil u hne] at hc

/-! ## `matchCI` and `occursCI` facts -/

theorem isWordChar_of_pySpace {c : Char} (h : pySpace c = true) : isWordChar c = false := by
  unfold pySpace at h
  simp only [Bool.or_eq_true, beq_iff_eq] at h
  rcases h with ((((h | h) | h) | h) | h) | h <;> subst h <;> decide

theorem bdry_of_pySpace {c : Char} (h : pySpace c = true) : bdry (some c) = true := by
  simp [bdry, isWordChar_of_pySpace h]

theorem matchCI_append {pat u : List Char} (v : List Char) (h : matchCI pat u = true) :
    matchCI pat (u ++ v) = true := by
  induction pat generalizing u with
  | nil => rfl
  | cons p ps ih =>
    cases u with
    | nil => simp [matchCI] at h
    | cons c cs =>
      rw [List.cons_append]
      unfold matchCI at h ⊢
      rw [Bool.and_eq_true] at h ⊢
      exact ⟨h.1, ih h.2⟩

theorem matchCI_decomp {pat l : List Char} (h : matchCI pat l = true) :
    ∃ u v, l = u ++ v ∧ u.map Char.toLower = pat := by
  induction pat generalizing l with
  | nil => exact ⟨[], l, rfl, rfl⟩
  | cons p ps ih =>
    cases l with
    | nil => simp [matchCI] at h
    | cons c cs =>
      unfold matchCI at h
      rw [Bool.and_eq_true, beq_iff_eq] at h
      obtain ⟨u, v, huv, hmap⟩ := ih h.2
      exact ⟨c :: u, v, by rw [List.cons_append, ← huv], by simp [hmap, h.1]⟩

theorem matchCI_of_map {pat u : List Char} (v : List Char) (h : u.map Char.toLower = pat) :
    matchCI pat (u ++ v) = true := by
  induction u generalizing pat with
  | nil => rw [← h]; rfl
  | cons c cs ih =>
    rw [List.map_cons] at h
    rw [← h, List.cons_append]
    unfold matchCI
    rw [Bool.and_eq_true, beq_iff_eq]
    exact ⟨rfl, ih rfl⟩

theorem matchCI_length_le {pat l : List Char} (h : matchCI pat l = true) :
    pat.length ≤ l.length := by
  obtain ⟨u, v, rfl, hm⟩ := matchCI_decomp h
  have := congrArg List.length hm
  rw [List.length_map] at this
  rw [List.length_append]
  omega

theorem matchCI_ws_head {p c : Char} {ps cs : List Char} (hc : pySpace c = true)
    (hp : pySpace p = false) : matchCI (p :: ps) (c :: cs) = false := by
  unfold matchCI
  rw [pySpace_toLower hc]
  rcases hcp : c == p with _ | _
  · rfl
  · rw [beq_iff_eq] at hcp
    subst hcp
    rw [hc] at hp
    simp at hp

theorem occursCI_decomp {pat l : List Char} (h : occursCI pat l = true) :
    ∃ u v, l = u ++ v ∧ matchCI pat v = true := by
  induction l with
  | nil => exact ⟨[], [], rfl, h⟩
  | cons c cs ih =>
    unfold occursCI at h
    rw [Bool.or_eq_true] at h
    rcases h with h | h
    · exact ⟨[], c :: cs, rfl, h⟩
    · obtain ⟨u, v, huv, hm⟩ := ih h
      exact ⟨c :: u, v, by rw [huv, List.cons_append], hm⟩

theorem occursCI_of_split {pat : List Char} (u : List Char) {v : List Char}
    (h : matchCI pat v = true) : occursCI pat (u ++ v) = true := by
  induction u with
  | nil =>
    rw [List.nil_append]
    cases v with
    | nil => exact h
    | cons c cs =>
      unfold occursCI
      rw [Bool.or_eq_true]
      exact .inl h
  | cons c cs ih =>
    rw [List.cons_append]
    unfold occursCI
    rw [Bool.or_eq_true]
    exact .inr ih

theorem occursCI_append_right {pat u : List Char} (v : List Char)
    (h : occursCI pat u = true) : occursCI pat (u ++ v) = true := by
  obtain ⟨a, b, rfl, hm⟩ := occursCI_decomp h
  rw [List.append_assoc]
  exact occursCI_of_split a (matchCI_append v hm)

theorem occursCI_infix {pat m : List Char} (a z : List Char)
    (h : occursCI pat m = true) : occursCI pat (a ++ m ++ z) = true := by
  have h1 : occursCI pat (m ++ z) = true := occursCI_append_right z h
  obtain ⟨u, v, huv, hm⟩ := occursCI_decomp h1
  rw [List.append_assoc, huv, ← List.append_assoc]
  exact occursCI_of_split (a ++ u) hm

/-! ## Scanner soundness and completeness

Each `re.search` scanner walks the string tracking the preceding character;
`prevAt prev u` is the character preceding the position right after `u`. -/

def prevAt (prev : Option Char) (u : List Char) : Option Char :=
  match u.getLast? with
  | some c => some c
  | none => prev

theorem prevAt_nil (prev : Option Char) : prevAt prev [] = prev := rfl

theorem prevAt_cons (prev : Option Char) (c : Char) (u : List Char) :
    prevAt prev (c :: u) = prevAt (some c) u := by
  cases u with
  | nil => rfl
  | cons d ds =>
    unfold prevAt
    rw [List.getLast?_cons_cons]
    rcases hg : (d :: ds).getLast? with _ | e
    · simp at hg
    · rfl

theorem danglingLimitAux_sound : ∀ (prev : Option Char) (l : List Char),
    danglingLimitAux prev l = true →
    ∃ u v, l = u ++ v ∧ bdry (prevAt prev u) = true ∧ danglingLimitAt v = true := by
  intro prev l
  induction l generalizing prev with
  | nil => intro h; simp [danglingLimitAux] at h
  | cons c cs ih =>
    intro h
    unfold danglingLimitAux at h
    rw [Bool.or_eq_true] at h
    rcases h with h | h
    · rw [Bool.and_eq_true] at h
      exact ⟨[], c :: cs, rfl, h.1, h.2⟩
    · obtain ⟨u, v, huv, hb, hat⟩ := ih (some c) h
      exact ⟨c :: u, v, by rw [huv, List.cons_append], by rwa [prevAt_cons], hat⟩

theorem danglingLimitAux_complete : ∀ (u : List Char) (prev : Option Char) (v : List Char),
    bdry (prevAt prev u) = true → danglingLimitAt v = true →
    danglingLimitAux prev (u ++ v) = true := by
  intro u
  induction u with
  | nil =>
    intro prev v hb hat
    rw [List.nil_append]
    cases v with
    | nil => exact absurd hat (by decide)
    | cons c cs =>
      unfold danglingLimitAux
      rw [Bool.or_eq_true]
      exact .inl (by rw [Bool.and_eq_true]; exact ⟨hb, hat⟩)
  | cons c cs ih =>
    intro prev v hb hat
    rw [List.cons_append]
    unfold danglingLimitAux
    rw [Bool.or_eq_true]
    exact .inr (ih (some c) v (by rwa [prevAt_cons] at hb) hat)

theorem containsLimitNumAux_sound : ∀ (prev : Option Char) (l : List Char),
    containsLimitNumAux prev l = true →
    ∃ u v, l = u ++ v ∧ bdry (prevAt prev u) = true ∧ limitNumAt v = true := by
  intro prev l
  induction l generalizing prev with
  | nil => intro h; simp [containsLimitNumAux] at h
  | cons c cs ih =>
    intro h
    unfold containsLimitNumAux at h
    rw [Bool.or_eq_true] at h
    rcases h with h | h
    · rw [Bool.and_eq_true] at h
      exact ⟨[], c :: cs, rfl, h.1, h.2⟩
    · obtain ⟨u, v, huv, hb, hat⟩ := ih (some c) h
      exact ⟨c :: u, v, by rw [huv, List.cons_append], by rwa [prevAt_cons], hat⟩

theorem containsLimitNumAux_complete : ∀ (u : List Char) (prev : Option Char) (v : List Char),
    bdry (prevAt prev u) = true → limitNumAt v = true →
    containsLimitNumAux prev (u ++ v) = true := by
  intro u
  induction u with
  | nil =>
    intro prev v hb hat
    rw [List.nil_append]
    cases v with
    | nil => exact absurd hat (by decide)
    | cons c cs =>
      unfold containsLimitNumAux
      rw [Bool.or_eq_true]
      exact .inl (by rw [Bool.and_eq_true]; exact ⟨hb, hat⟩)
  | cons c cs ih =>
    intro prev v hb hat
    rw [List.cons_append]
    unfold containsLimitNumAux
    rw [Bool.or_eq_true]
    exact .inr (ih (some c) v (by rwa [prevAt_cons] at hb) hat)

/-! ## Stop lemmas for `takeWhile`/`dropWhile` -/

theorem takeWhile_append_stop {p : Char → Bool} {a : List Char} {c : Char} (b : List Char)
    (ha : ∀ x ∈ a, p x = true) (hc : p c = false) :
    (a ++ c :: b).takeWhile p = a := by
  induction a with
  | nil =>
    rw [List.nil_append, List.takeWhile_cons_of_neg]
    simp [hc]
  | cons d ds ih =>
    rw [List.cons_append, List.takeWhile_cons_of_pos (by simp [ha d (by simp)])]
    rw [ih (fun x hx => ha x (by simp [hx]))]

theorem dropWhile_append_stop {p : Char → Bool} {a : List Char} {c : Char} (b : List Char)
    (ha : ∀ x ∈ a, p x = true) (hc : p c = false) :
    (a ++ c :: b).dropWhile p = c :: b := by
  rw [dropWhile_append_all _ ha, dropWhile_eq_self_of_head hc]

/-! ## `limitNumAt` structure -/

theorem map_toLower_length {w pat : List Char} (h : w.map Char.toLower = pat) :
    w.length = pat.length := by
  have := congrArg List.length h
  simpa using this

theorem limitNumAt_decomp {v : List Char} (h : limitNumAt v = true) :
    ∃ w sp dg tl, v = w ++ sp ++ dg :: tl ∧
      w.map Char.toLower = ['l', 'i', 'm', 'i', 't'] ∧ sp ≠ [] ∧
      (∀ c ∈ sp, pySpace c = true) ∧ dg.isDigit = true := by
  unfold limitNumAt at h
  rw [Bool.and_eq_true, Bool.and_eq_true] at h
  obtain ⟨⟨hm, hws⟩, hdg⟩ := h
  obtain ⟨w, rest, rfl, hmap⟩ := matchCI_decomp hm
  have hw5 : w.length = 5 := map_toLower_length hmap
  rw [← hw5, List.drop_left] at hws hdg
  rcases rest with _ | ⟨r, rs⟩
  · simp at hws
  · have hr : pySpace r = true := by simpa using hws
    have hrest : (r :: rs).dropWhile pySpace = ((r :: rs).dropWhile pySpace) := rfl
    rcases hdw : (r :: rs).dropWhile pySpace with _ | ⟨dg, tl⟩
    · rw [hdw] at hdg; simp at hdg
    · rw [hdw] at hdg
      have hdgd : dg.isDigit = true := by simpa using hdg
      refine ⟨w, (r :: rs).takeWhile pySpace, dg, tl, ?_, hmap, ?_, ?_, hdgd⟩
      · rw [List.append_assoc]
        congr 1
        rw [← hdw, List.takeWhile_append_dropWhile]
      · rw [List.takeWhile_cons_of_pos hr]
        simp
      · intro c hc
        exact List.mem_takeWhile_imp hc

theorem limitNumAt_construct {w sp : List Char} {dg : Char} (tl : List Char)
    (hmap : w.map Char.toLower = ['l', 'i', 'm', 'i', 't']) (hsp : sp ≠ [])
    (hws : ∀ c ∈ sp, pySpace c = true) (hdg : dg.isDigit = true) :
    limitNumAt (w ++ sp ++ dg :: tl) = true := by
  have hw5 : w.length = 5 := map_toLower_length hmap
  unfold limitNumAt
  rw [List.append_assoc]
  rw [Bool.and_eq_true, Bool.and_eq_true]
  refine ⟨⟨matchCI_of_map _ hmap, ?_⟩, ?_⟩
  · rw [← hw5, List.drop_left]
    rcases sp with _ | ⟨c, cs⟩
    · simp at hsp
    · simpa using hws c (by simp)
  · rw [← hw5, List.drop_left, dropWhile_append_all _ hws,
      dropWhile_eq_self_of_head (pySpace_of_isDigit hdg)]
    simpa using hdg

/-! ## Peeling surrounding whitespace off the scanners -/

theorem containsLimitNumAux_congr : ∀ (l : List Char) (p1 p2 : Option Char),
    bdry p1 = bdry p2 → containsLimitNumAux p1 l = containsLimitNumAux p2 l := by
  intro l
  induction l with
  | nil => intro _ _ _; rfl
  | cons c cs _ =>
    intro p1 p2 h
    unfold containsLimitNumAux
    rw [h]

theorem containsLimitNum_def (l : List Char) :
    containsLimitNum l = containsLimitNumAux none l := rfl

theorem containsLimitNumAux_cons (prev : Option Char) (c : Char) (cs : List Char) :
    containsLimitNumAux prev (c :: cs) =
      ((bdry prev && limitNumAt (c :: cs)) || containsLimitNumAux (some c) cs) := rfl

theorem containsLimitNum_peel_left {a y : List Char} (ha : ∀ c ∈ a, pySpace c = true) :
    containsLimitNum (a ++ y) = containsLimitNum y := by
  induction a with
  | nil => rfl
  | cons c cs ih =>
    have hc := ha c (by simp)
    have hcs : ∀ x ∈ cs, pySpace x = true := fun x hx => ha x (by simp [hx])
    have h1 : limitNumAt (c :: (cs ++ y)) = false := by
      unfold limitNumAt
      rw [matchCI_ws_head hc (by decide)]
      rfl
    have h2 : containsLimitNumAux (some c) (cs ++ y) = containsLimitNumAux none (cs ++ y) :=
      containsLimitNumAux_congr _ _ _ (by rw [bdry_of_pySpace hc]; rfl)
    rw [List.cons_append, containsLimitNum_def, containsLimitNumAux_cons, h1]
    simp only [Bool.and_false, Bool.false_or]
    rw [h2, ← containsLimitNum_def]
    exact ih hcs

theorem containsLimitNum_peel_right {m z : List Char} (hz : ∀ c ∈ z, pySpace c = true)
    (h : containsLimitNum (m ++ z) = true) : containsLimitNum m = true := by
  obtain ⟨u, v, huv, hb, hat⟩ := containsLimitNumAux_sound none (m ++ z) h
  obtain ⟨w, sp, dg, tl, hv, hmap, hspne, hsp, hdg⟩ := limitNumAt_decomp hat
  have hx : m ++ z = (u ++ w ++ sp) ++ dg :: tl := by
    rw [huv, hv]
    simp [List.append_assoc]
  set x := u ++ w ++ sp with hxdef
  have hlt : x.length < m.length := by
    by_contra hge
    push_neg at hge
    have hdgz : dg ∈ z := by
      have hzeq : (m ++ z).drop m.length = z := List.drop_left m z
      rw [hx, List.drop_append_of_le_length hge] at hzeq
      rw [← hzeq]
      simp
    have := hz dg hdgz
    rw [pySpace_of_isDigit hdg] at this
    simp at this
  obtain ⟨k, hk⟩ : ∃ k, m.length - x.length = k + 1 := ⟨m.length - x.length - 1, by omega⟩
  have hm : m = x ++ dg :: tl.take k := by
    have h1 : m = (m ++ z).take m.length := by rw [List.take_left]
    rw [hx] at h1
    have h2 : m.length = x.length + (k + 1) := by omega
    rw [h2, List.take_append, List.take_succ_cons] at h1
    exact h1
  rw [hm, hxdef, List.append_assoc, List.append_assoc, containsLimitNum_def]
  have hcons : limitNumAt (w ++ sp ++ dg :: tl.take k) = true :=
    limitNumAt_construct _ hmap hspne hsp hdg
  rw [List.append_assoc] at hcons
  exact containsLimitNumAux_complete u none _ hb hcons

/-! ## `danglingLimitAt` structure -/

theorem danglingLimit_def (l : List Char) : danglingLimit l = danglingLimitAux none l := rfl

theorem danglingLimitAt_decomp {v : List Char} (h : danglingLimitAt v = true) :
    ∃ w z, v = w ++ z ∧ w.map Char.toLower = ['l', 'i', 'm', 'i', 't'] ∧
      ∀ c ∈ z, pySpace c = true := by
  unfold danglingLimitAt at h
  rw [Bool.and_eq_true] at h
  obtain ⟨w, z, rfl, hmap⟩ := matchCI_decomp h.1
  refine ⟨w, z, rfl, hmap, ?_⟩
  have h2 := h.2
  have hw5 : w.length = 5 := map_toLower_length hmap
  rw [← hw5, List.drop_left] at h2
  exact fun c hc => List.all_eq_true.mp h2 c hc

theorem danglingLimitAt_construct {w z : List Char}
    (hmap : w.map Char.toLower = ['l', 'i', 'm', 'i', 't'])
    (hz : ∀ c ∈ z, pySpace c = true) : danglingLimitAt (w ++ z) = true := by
  unfold danglingLimitAt
  rw [Bool.and_eq_true]
  refine ⟨matchCI_of_map _ hmap, ?_⟩
  have hw5 : w.length = 5 := map_toLower_length hmap
  rw [← hw5, List.drop_left]
  exact List.all_eq_true.mpr hz

theorem prevAt_append_ws {a u : List Char} (ha : ∀ c ∈ a, pySpace c = true)
    (hb : bdry (prevAt none u) = true) : bdry (prevAt none (a ++ u)) = true := by
  rcases u with _ | ⟨c, cs⟩
  · rw [List.append_nil]
    rcases haa : a.getLast? with _ | e
    · unfold prevAt
      rw [haa]
      rfl
    · unfold prevAt
      rw [haa]
      exact bdry_of_pySpace (ha e (List.mem_of_mem_getLast? haa))
  · have hne : (c :: cs : List Char) ≠ [] := by simp
    unfold prevAt at hb ⊢
    rw [List.getLast?_append_of_ne_nil a hne]
    exact hb

theorem danglingLimit_pad {m : List Char} (a z : List Char)
    (ha : ∀ c ∈ a, pySpace c = true) (hz : ∀ c ∈ z, pySpace c = true)
    (h : danglingLimit m = true) : danglingLimit (a ++ m ++ z) = true := by
  obtain ⟨u, v, hbv, hb, hat⟩ := danglingLimitAux_sound none m h
  obtain ⟨w, z0, hvz, hmap, hz0⟩ := danglingLimitAt_decomp hat
  have hat' : danglingLimitAt (w ++ (z0 ++ z)) = true :=
    danglingLimitAt_construct hmap (by
      intro c hc
      rcases List.mem_append.mp hc with h' | h'
      exacts [hz0 c h', hz c h'])
  have hb' : bdry (prevAt none (a ++ u)) = true := prevAt_append_ws ha hb
  have hshape : a ++ m ++ z = (a ++ u) ++ (w ++ (z0 ++ z)) := by
    rw [hbv, hvz]
    simp [List.append_assoc]
  rw [hshape, danglingLimit_def]
  exact danglingLimitAux_complete (a ++ u) none _ hb' hat'

theorem danglingLimit_trim_false {s : List Char} (h : danglingLimit s = false) :
    danglingLimit (trim s) = false := by
  by_contra hc
  rw [Bool.not_eq_false] at hc
  obtain ⟨a, z, ha, hz, hs⟩ := trim_decomp s
  have := danglingLimit_pad a z ha hz hc
  rw [← hs, h] at this
  simp at this

theorem getLast_toLower_t {w : List Char}
    (hmap : w.map Char.toLower = ['l', 'i', 'm', 'i', 't']) :
    ∃ c, w.getLast? = some c ∧ c.toLower = 't' ∧ pySpace c = false := by
  have hmapLast := List.getLast?_map Char.toLower w
  rw [hmap] at hmapLast
  rcases hopt : w.getLast? with _ | c
  · rw [hopt] at hmapLast
    simp at hmapLast
  · rw [hopt] at hmapLast
    have hct : c.toLower = 't' := by simpa using hmapLast.symm
    refine ⟨c, rfl, hct, ?_⟩
    by_contra hcc
    rw [Bool.not_eq_false] at hcc
    rw [pySpace_toLower hcc] at hct
    subst hct
    exact absurd hcc (by decide)

theorem danglingLimit_last_digit {b : List Char} {dg : Char} (h : danglingLimit b = true)
    (hg : b.getLast? = some dg) (hd : dg.isDigit = true) : False := by
  obtain ⟨u, v, hbv, hb, hat⟩ := danglingLimitAux_sound none b h
  obtain ⟨w, z, hvz, hmap, hz⟩ := danglingLimitAt_decomp hat
  obtain ⟨c, hcw, hct, hcw'⟩ := getLast_toLower_t hmap
  rw [hbv, hvz] at hg
  rcases hzn : z with _ | ⟨e, es⟩
  · rw [hzn, List.append_nil] at hg
    have hwne : w ≠ [] := by
      intro h0
      rw [h0] at hmap
      simp at hmap
    rw [List.getLast?_append_of_ne_nil u hwne, hcw] at hg
    obtain rfl : c = dg := by simpa using hg
    rw [toLower_of_isDigit hd] at hct
    subst hct
    simp at hd
  · rw [hzn] at hg
    have hne : (e :: es : List Char) ≠ [] := by simp
    have hne2 : w ++ e :: es ≠ [] := by simp
    rw [List.getLast?_append_of_ne_nil u hne2, List.getLast?_append_of_ne_nil w hne] at hg
    have hdgz : dg ∈ z := by
      rw [hzn]
      exact List.mem_of_mem_getLast? hg
    have := hz dg hdgz
    rw [pySpace_of_isDigit hd] at this
    simp at this

/-! ## `revChunk` structure -/

theorem revChunk_decomp {r r2 : List Char} (h : revChunk r = some r2) :
    ∃ ws1 ds ws2, r = ws1 ++ ds ++ ws2 ++ r2 ∧
      (∀ x ∈ ws1, pySpace x = true) ∧ ds ≠ [] ∧ (∀ x ∈ ds, Char.isDigit x = true) ∧
      ws2 ≠ [] ∧ (∀ x ∈ ws2, pySpace x = true) ∧
      (r.dropWhile pySpace).head? = ds.head? := by
  unfold revChunk at h
  by_cases h0 : ((r.dropWhile pySpace).takeWhile Char.isDigit).isEmpty
  · rw [if_pos h0] at h
    simp at h
  · rw [if_neg h0] at h
    by_cases h1 : ((r.dropWhile pySpace).dropWhile Char.isDigit).head?.any pySpace
    · rw [if_pos h1] at h
      have hr2 : r2 = ((r.dropWhile pySpace).dropWhile Char.isDigit).dropWhile pySpace :=
        (Option.some.inj h).symm
      have hdsne : (r.dropWhile pySpace).takeWhile Char.isDigit ≠ [] := by
        simpa using h0
      refine ⟨r.takeWhile pySpace, (r.dropWhile pySpace).takeWhile Char.isDigit,
        ((r.dropWhile pySpace).dropWhile Char.isDigit).takeWhile pySpace,
        ?_, ?_, hdsne, ?_, ?_, ?_, ?_⟩
      · rw [hr2, List.append_assoc, List.append_assoc]
        conv_lhs => rw [← List.takeWhile_append_dropWhile (p := pySpace) (l := r)]
        congr 1
        conv_lhs => rw [← List.takeWhile_append_dropWhile (p := Char.isDigit)
          (l := r.dropWhile pySpace)]
        congr 1
        conv_lhs => rw [← List.takeWhile_append_dropWhile (p := pySpace)
          (l := (r.dropWhile pySpace).dropWhile Char.isDigit)]
      · exact fun x hx => List.mem_takeWhile_imp hx
      · exact fun x hx => List.mem_takeWhile_imp hx
      · rcases hr1 : (r.dropWhile pySpace).dropWhile Char.isDigit with _ | ⟨c, cs⟩
        · rw [hr1] at h1
          simp at h1
        · rw [hr1] at h1
          have hcw : pySpace c = true := by simpa using h1
          rw [List.takeWhile_cons_of_pos hcw]
          simp
      · exact fun x hx => List.mem_takeWhile_imp hx
      · rcases hds : (r.dropWhile pySpace).takeWhile Char.isDigit with _ | ⟨d, ds'⟩
        · exact absurd hds hdsne
        · conv_lhs => rw [← List.takeWhile_append_dropWhile (p := Char.isDigit)
            (l := r.dropWhile pySpace)]
          rw [hds]
          rfl
    · rw [if_neg h1] at h
      simp at h

theorem revTopLimit_eq_of_chunk {r r2 : List Char} (hc : revChunk r = some r2) :
    revTopLimit r = (revLimitWordAt r2 ||
      (matchCI ['t', 'e', 's', 'f', 'f', 'o'] r2 && ((r2.drop 6).head?.any pySpace) &&
        match revChunk (r2.drop 6) with
        | none => false
        | some r6 => revLimitWordAt r6)) := by
  unfold revTopLimit
  rw [hc]

theorem revTopLimit_none {r : List Char} (hc : revChunk r = none) : revTopLimit r = false := by
  unfold revTopLimit
  rw [hc]

theorem revLimitWordAt_decomp {r : List Char} (h : revLimitWordAt r = true) :
    ∃ w5 rest, r = w5 ++ rest ∧ w5.map Char.toLower = ['t', 'i', 'm', 'i', 'l'] ∧
      bdry rest.head? = true := by
  unfold revLimitWordAt at h
  rw [Bool.and_eq_true] at h
  obtain ⟨w5, rest, rfl, hmap⟩ := matchCI_decomp h.1
  refine ⟨w5, rest, rfl, hmap, ?_⟩
  have h2 := h.2
  have hw5 : w5.length = 5 := map_toLower_length hmap
  rwa [← hw5, List.drop_left] at h2

/-! ## `hasTopLevelLimit` structure -/

theorem prevAt_none (u : List Char) : prevAt none u = u.getLast? := by
  unfold prevAt
  rcases hu : u.getLast? with _ | c <;> rfl

theorem trimLeft_getLast {l : List Char} {c : Char} (hc : l.getLast? = some c)
    (hw : pySpace c = false) :
    l.dropWhile pySpace ≠ [] ∧ (l.dropWhile pySpace).getLast? = some c := by
  obtain ⟨u, hu, hall⟩ := dropWhile_decomp pySpace l
  have hne : l.dropWhile pySpace ≠ [] := by
    intro h0
    rw [h0, List.append_nil] at hu
    have hcm : c ∈ l := List.mem_of_mem_getLast? hc
    rw [hall c (hu ▸ hcm)] at hw
    simp at hw
  refine ⟨hne, ?_⟩
  rw [hu] at hc
  rwa [List.getLast?_append_of_ne_nil u hne] at hc

theorem hasTopLevelLimit_getLast {s : List Char} (h : hasTopLevelLimit s = true) :
    ∃ dg, dg.isDigit = true ∧ trim s ≠ [] ∧ (trim s).getLast? = some dg := by
  unfold hasTopLevelLimit at h
  rcases hrc : revChunk s.reverse with _ | r2
  · rw [revTopLimit_none hrc] at h
    simp at h
  · obtain ⟨ws1, ds, ws2, hreq, hws1, hdsne, hdsdig, hws2ne, hws2, hhead⟩ := revChunk_decomp hrc
    rcases hds : ds with _ | ⟨d, ds'⟩
    · exact absurd hds hdsne
    · have hd : d.isDigit = true := hdsdig d (by rw [hds]; simp)
      rw [hds] at hhead
      have hTR : (trimRight s).getLast? = some d := by
        unfold trimRight
        rw [List.getLast?_reverse]
        exact hhead
      obtain ⟨hne, hlast⟩ := trimLeft_getLast hTR (pySpace_of_isDigit hd)
      exact ⟨d, hd, hne, hlast⟩

theorem danglingLimit_false_of_hasTop {s : List Char} (h : hasTopLevelLimit s = true) :
    danglingLimit s = false := by
  by_contra hcon
  rw [Bool.not_eq_false] at hcon
  obtain ⟨u, v, hbv, hb, hat⟩ := danglingLimitAux_sound none s hcon
  obtain ⟨w, z, hvz, hmap, hz⟩ := danglingLimitAt_decomp hat
  obtain ⟨c, hcw, hct, hcw'⟩ := getLast_toLower_t hmap
  obtain ⟨wt, hwt⟩ := List.head?_eq_some_iff.mp (by rw [List.head?_reverse]; exact hcw)
  have hdrop : s.reverse.dropWhile pySpace = c :: (wt ++ u.reverse) := by
    rw [hbv, hvz, List.reverse_append, List.reverse_append, List.append_assoc]
    rw [dropWhile_append_all _ (fun x hx => hz x (by simpa using hx))]
    rw [hwt, List.cons_append, dropWhile_eq_self_of_head hcw']
  unfold hasTopLevelLimit at h
  rcases hrc : revChunk s.reverse with _ | r2
  · rw [revTopLimit_none hrc] at h
    simp at h
  · obtain ⟨ws1, ds, ws2, hreq, hws1, hdsne, hdsdig, hws2ne, hws2, hhead⟩ := revChunk_decomp hrc
    rcases hds : ds with _ | ⟨d, ds'⟩
    · exact absurd hds hdsne
    · rw [hds] at hhead
      rw [hdrop] at hhead
      obtain rfl : c = d := by simpa using hhead
      have hd : c.isDigit = true := hdsdig c (by rw [hds]; simp)
      rw [toLower_of_isDigit hd] at hct
      subst hct
      exact absurd hd (by decide)

theorem hasTopLevelLimit_decomp {s : List Char} (h : hasTopLevelLimit s = true) :
    ∃ pre w sp dg tl, s = pre ++ w ++ sp ++ dg :: tl ∧
      w.map Char.toLower = ['l', 'i', 'm', 'i', 't'] ∧ sp ≠ [] ∧
      (∀ c ∈ sp, pySpace c = true) ∧ dg.isDigit = true ∧ bdry pre.getLast? = true := by
  unfold hasTopLevelLimit at h
  rcases hrc : revChunk s.reverse with _ | r2
  · rw [revTopLimit_none hrc] at h
    simp at h
  · rw [revTopLimit_eq_of_chunk hrc, Bool.or_eq_true] at h
    obtain ⟨ws1, ds, ws2, hreq, hws1, hdsne, hdsdig, hws2ne, hws2, -⟩ := revChunk_decomp hrc
    rcases h with h | h
    · obtain ⟨w5, rest, hr2, hmap5, hbd⟩ := revLimitWordAt_decomp h
      rcases hdsr : ds.reverse with _ | ⟨dg, dtl⟩
      · rw [List.reverse_eq_nil_iff] at hdsr
        exact absurd hdsr hdsne
      refine ⟨rest.reverse, w5.reverse, ws2.reverse, dg, dtl ++ ws1.reverse, ?_, ?_, ?_, ?_, ?_, ?_⟩
      · rw [← s.reverse_reverse, hreq, hr2]
        simp only [List.reverse_append, List.reverse_cons, List.append_assoc, hdsr]
        simp
      · rw [List.map_reverse, hmap5]
        rfl
      · simpa using hws2ne
      · intro c hc
        exact hws2 c (by simpa using hc)
      · exact hdsdig dg (by rw [← ds.reverse_reverse, hdsr]; simp)
      · rw [List.getLast?_reverse]
        exact hbd
    · rw [Bool.and_eq_true, Bool.and_eq_true] at h
      obtain ⟨⟨hoff, hws3⟩, h6⟩ := h
      rcases hrc2 : revChunk (r2.drop 6) with _ | r6
      · rw [hrc2] at h6
        simp at h6
      · rw [hrc2] at h6
        obtain ⟨w6, rest6, hr6, hmap6, hbd6⟩ := revLimitWordAt_decomp h6
        obtain ⟨ws1', ds', ws2', hreq', hws1', hdsne', hdsdig', hws2ne', hws2', -⟩ :=
          revChunk_decomp hrc2
        obtain ⟨o6, otail, ho, homap⟩ := matchCI_decomp hoff
        have ho6 : o6.length = 6 := map_toLower_length homap
        have hotail : r2.drop 6 = otail := by
          rw [ho, ← ho6, List.drop_left]
        rw [hotail] at hreq'
        rcases hdsr : ds'.reverse with _ | ⟨dg, dtl⟩
        · rw [List.reverse_eq_nil_iff] at hdsr
          exact absurd hdsr hdsne'
        refine ⟨rest6.reverse, w6.reverse, ws2'.reverse, dg,
          dtl ++ ws1'.reverse ++ o6.reverse ++ ws2.reverse ++ ds.reverse ++ ws1.reverse,
          ?_, ?_, ?_, ?_, ?_, ?_⟩
        · rw [← s.reverse_reverse, hreq, ho, hreq', hr6]
          simp only [List.reverse_append, List.reverse_cons, List.append_assoc, hdsr]
          simp
        · rw [List.map_reverse, hmap6]
          rfl
        · simpa using hws2ne'
        · intro c hc
          exact hws2' c (by simpa using hc)
        · exact hdsdig' dg (by rw [← ds'.reverse_reverse, hdsr]; simp)
        · rw [List.getLast?_reverse]
          exact hbd6

theorem containsLimitNum_of_hasTop {s : List Char} (h : hasTopLevelLimit s = true) :
    containsLimitNum s = true := by
  obtain ⟨pre, w, sp, dg, tl, hs, hmap, hspne, hsp, hdg, hb⟩ := hasTopLevelLimit_decomp h
  have hcons : limitNumAt (w ++ sp ++ dg :: tl) = true :=
    limitNumAt_construct _ hmap hspne hsp hdg
  rw [List.append_assoc] at hcons
  rw [hs, List.append_assoc, List.append_assoc, containsLimitNum_def]
  exact containsLimitNumAux_complete pre none _ (by rw [prevAt_none]; exact hb) hcons

theorem occursCI_limit_of_hasTop {s : List Char} (h : hasTopLevelLimit s = true) :
    occursCI ['l', 'i', 'm', 'i', 't'] s = true := by
  obtain ⟨pre, w, sp, dg, tl, hs, hmap, -, -, -, -⟩ := hasTopLevelLimit_decomp h
  rw [hs, List.append_assoc, List.append_assoc]
  exact occursCI_of_split pre (matchCI_of_map _ hmap)

theorem occursCI_limit_of_dangling {s : List Char} (h : danglingLimit s = true) :
    occursCI ['l', 'i', 'm', 'i', 't'] s = true := by
  obtain ⟨u, v, hbv, -, hat⟩ := danglingLimitAux_sound none s h
  obtain ⟨w, z, hvz, hmap, -⟩ := danglingLimitAt_decomp hat
  rw [hbv, hvz]
  exact occursCI_of_split u (matchCI_of_map _ hmap)

theorem occursCI_limit_of_contains {s : List Char} (h : containsLimitNum s = true) :
    occursCI ['l', 'i', 'm', 'i', 't'] s = true := by
  obtain ⟨u, v, hbv, -, hat⟩ := containsLimitNumAux_sound none s h
  obtain ⟨w, sp, dg, tl, hvz, hmap, -, -, -⟩ := limitNumAt_decomp hat
  rw [hbv, hvz, List.append_assoc]
  exact occursCI_of_split u (matchCI_of_map _ hmap)

theorem hasTopLevelLimit_construct {pre ds : List Char} (hds : ds ≠ [])
    (hdig : ∀ c ∈ ds, Char.isDigit c = true) (hb : bdry pre.getLast? = true) :
    hasTopLevelLimit (pre ++ 'L' :: 'I' :: 'M' :: 'I' :: 'T' :: ' ' :: ds) = true := by
  obtain ⟨d0, dt, hd0⟩ : ∃ d0 dt, ds.reverse = d0 :: dt := by
    rcases hr : ds.reverse with _ | ⟨d0, dt⟩
    · rw [List.reverse_eq_nil_iff] at hr
      exact absurd hr hds
    · exact ⟨d0, dt, rfl⟩
  have hrevdig : ∀ c ∈ ds.reverse, Char.isDigit c = true :=
    fun c hc => hdig c (by simpa using hc)
  have hrev : (pre ++ 'L' :: 'I' :: 'M' :: 'I' :: 'T' :: ' ' :: ds).reverse
      = ds.reverse ++ ' ' :: 'T' :: 'I' :: 'M' :: 'I' :: 'L' :: pre.reverse := by
    simp [List.reverse_append]
  have hchunk : revChunk ((pre ++ 'L' :: 'I' :: 'M' :: 'I' :: 'T' :: ' ' :: ds).reverse)
      = some ('T' :: 'I' :: 'M' :: 'I' :: 'L' :: pre.reverse) := by
    rw [hrev]
    unfold revChunk
    have h1 : (ds.reverse ++ ' ' :: ('T' :: 'I' :: 'M' :: 'I' :: 'L' :: pre.reverse)).dropWhile
        pySpace = ds.reverse ++ ' ' :: ('T' :: 'I' :: 'M' :: 'I' :: 'L' :: pre.reverse) := by
      rw [hd0, List.cons_append]
      exact dropWhile_eq_self_of_head
        (pySpace_of_isDigit (hrevdig d0 (by rw [hd0]; simp)))
    rw [h1, takeWhile_append_stop _ hrevdig (by decide),
      dropWhile_append_stop _ hrevdig (by decide)]
    rw [if_neg (by simp [hd0]), if_pos (by rfl)]
    congr 1
  rw [hasTopLevelLimit, revTopLimit_eq_of_chunk hchunk]
  have hword : revLimitWordAt ('T' :: 'I' :: 'M' :: 'I' :: 'L' :: pre.reverse) = true := by
    unfold revLimitWordAt
    rw [Bool.and_eq_true]
    constructor
    · exact matchCI_of_map (u := ['T', 'I', 'M', 'I', 'L']) _ (by decide)
    · show bdry pre.reverse.head? = true
      rw [List.head?_reverse]
      exact hb
  rw [hword]
  simp

theorem hasTopLevelLimit_limitTail (x : List Char) (d : Nat) :
    hasTopLevelLimit (x ++ limitTail d) = true := by
  have hshape : x ++ limitTail d
      = (x ++ [' ']) ++ 'L' :: 'I' :: 'M' :: 'I' :: 'T' :: ' ' :: natToChars d := by
    simp [limitTail]
  rw [hshape]
  exact hasTopLevelLimit_construct (natToChars_ne_nil d)
    (fun c hc => natToChars_digits hc)
    (by rw [List.getLast?_concat]; decide)

/-! ## `findKw` and `findSemi` facts -/

theorem bdry_none : bdry none = true := rfl

theorem findKwAux_bound : ∀ (l : List Char) (prev : Option Char) (i j : Nat),
    findKwAux prev l i = some j → i ≤ j := by
  intro l
  induction l with
  | nil => intro prev i j h; simp [findKwAux] at h
  | cons c cs ih =>
    intro prev i j h
    unfold findKwAux at h
    by_cases hc : (bdry prev && kwAt (c :: cs)) = true
    · rw [if_pos hc] at h
      exact le_of_eq (Option.some.inj h)
    · rw [if_neg hc] at h
      have := ih (some c) (i + 1) j h
      omega

theorem findKw_zero_kwAt {l : List Char} (h : findKw l = some 0) : kwAt l = true := by
  unfold findKw at h
  cases l with
  | nil => simp [findKwAux] at h
  | cons c cs =>
    unfold findKwAux at h
    by_cases hc : (bdry none && kwAt (c :: cs)) = true
    · rw [bdry_none, Bool.true_and] at hc
      exact hc
    · rw [if_neg hc] at h
      have := findKwAux_bound cs (some c) 1 0 h
      omega

theorem findKw_zero_of_kwAt {l : List Char} (h : kwAt l = true) : findKw l = some 0 := by
  cases l with
  | nil => exact absurd h (by decide)
  | cons c cs =>
    unfold findKw findKwAux
    rw [if_pos (by rw [bdry_none, Bool.true_and]; exact h)]

theorem findSemiAux_none : ∀ (l : List Char) (i : Nat), findSemiAux l i = none → ';' ∉ l := by
  intro l
  induction l with
  | nil => intro i _; simp
  | cons c cs ih =>
    intro i h
    unfold findSemiAux at h
    by_cases hc : (c == ';') = true
    · rw [if_pos hc] at h
      simp at h
    · rw [if_neg hc] at h
      rw [beq_iff_eq] at hc
      simp only [List.mem_cons]
      rintro (rfl | hmem)
      · exact hc rfl
      · exact ih (i + 1) h hmem

theorem findSemiAux_some : ∀ (l : List Char) (i j : Nat), findSemiAux l i = some j →
    ∃ w rest, l = w ++ ';' :: rest ∧ ';' ∉ w ∧ j = i + w.length := by
  intro l
  induction l with
  | nil => intro i j h; simp [findSemiAux] at h
  | cons c cs ih =>
    intro i j h
    unfold findSemiAux at h
    by_cases hc : (c == ';') = true
    · rw [if_pos hc] at h
      rw [beq_iff_eq] at hc
      subst hc
      exact ⟨[], cs, rfl, by simp, by simpa using (Option.some.inj h).symm⟩
    · rw [if_neg hc] at h
      rw [beq_iff_eq] at hc
      obtain ⟨w, rest, hl, hw, hj⟩ := ih (i + 1) j h
      refine ⟨c :: w, rest, by rw [hl, List.cons_append], ?_, by simp [hj]; omega⟩
      simp only [List.mem_cons]
      rintro (rfl | hmem)
      · exact hc rfl
      · exact hw hmem

/-! ## `extract_sql_candidate` facts -/

theorem kwStage_eq_some {t : List Char} {i : Nat} (h : findKw t = some i) :
    kwStage t = if 0 < i then trim (t.drop i) else t := by
  unfold kwStage
  rw [h]

theorem kwStage_eq_none {t : List Char} (h : findKw t = none) : kwStage t = t := by
  unfold kwStage
  rw [h]

theorem semiStage_eq_some {t : List Char} {i : Nat} (h : findSemi t = some i) :
    semiStage t = trim (t.take (i + 1)) := by
  unfold semiStage
  rw [h]

theorem semiStage_eq_none {t : List Char} (h : findSemi t = none) : semiStage t = t := by
  unfold semiStage
  rw [h]

theorem trim_fenceStage {t : List Char} (ht : trim t = t) : trim (fenceStage t) = fenceStage t := by
  unfold fenceStage
  by_cases h : bq3.isPrefixOf t
  · rw [if_pos h]
    exact trim_idem _
  · rw [if_neg h]
    exact ht

theorem trim_kwStage {t : List Char} (ht : trim t = t) : trim (kwStage t) = kwStage t := by
  rcases hk : findKw t with _ | i
  · rw [kwStage_eq_none hk]
    exact ht
  · rw [kwStage_eq_some hk]
    by_cases hi : 0 < i
    · rw [if_pos hi]
      exact trim_idem _
    · rw [if_neg hi]
      exact ht

theorem trim_semiStage {t : List Char} (ht : trim t = t) :
    trim (semiStage t) = semiStage t := by
  rcases hk : findSemi t with _ | i
  · rw [semiStage_eq_none hk]
    exact ht
  · rw [semiStage_eq_some hk]
    exact trim_idem _

theorem trim_extract (text : List Char) :
    trim (extract_sql_candidate text) = extract_sql_candidate text := by
  unfold extract_sql_candidate
  by_cases h0 : text = []
  · rw [if_pos h0]
    rfl
  · rw [if_neg h0]
    exact trim_semiStage (trim_kwStage (trim_idem _))

theorem semiStage_semis (t : List Char) :
    (∃ w, semiStage t = w ++ [';'] ∧ ';' ∉ w) ∨ (semiStage t = t ∧ ';' ∉ t) := by
  rcases hk : findSemi t with _ | i
  · exact .inr ⟨semiStage_eq_none hk, findSemiAux_none t 0 hk⟩
  · obtain ⟨w, rest, hl, hw, hi⟩ := findSemiAux_some t 0 i hk
    rw [Nat.zero_add] at hi
    subst hi
    left
    rw [semiStage_eq_some hk, hl, List.take_append, List.take_succ_cons, List.take_zero]
    have htr : trimRight (w ++ [';']) = w ++ [';'] :=
      trimRight_eq_self (List.getLast?_concat w) (by decide)
    have heq : trim (w ++ [';']) = (w ++ [';']).dropWhile pySpace := by
      unfold trim trimLeft
      rw [htr]
    rw [heq, List.dropWhile_append]
    by_cases hwe : (w.dropWhile pySpace).isEmpty
    · rw [if_pos hwe]
      exact ⟨[], by rw [dropWhile_eq_self_of_head (by decide)]; rfl, by simp⟩
    · rw [if_neg hwe]
      refine ⟨w.dropWhile pySpace, rfl, fun hmem => ?_⟩
      exact hw ((List.dropWhile_suffix (p := pySpace)).subset hmem)

theorem extract_semis (text : List Char) :
    (∃ w, extract_sql_candidate text = w ++ [';'] ∧ ';' ∉ w) ∨
      (';' ∉ extract_sql_candidate text) := by
  unfold extract_sql_candidate
  by_cases h0 : text = []
  · rw [if_pos h0]
    exact .inr (by simp)
  · rw [if_neg h0]
    rcases semiStage_semis (kwStage (trim (dropLabel (fenceStage (trim text))))) with h | h
    · exact .inl h
    · refine .inr ?_
      rw [h.1]
      exact h.2

/-! ## `stripTrailingSemicolons` facts -/

theorem sts_decomp (l : List Char) :
    ∃ z, trim l = stripTrailingSemicolons l ++ z ∧ ∀ x ∈ z, x = ';' := by
  unfold stripTrailingSemicolons
  refine ⟨((trim l).reverse.takeWhile (fun c => c == ';')).reverse, ?_, ?_⟩
  · rw [← List.reverse_append, List.takeWhile_append_dropWhile, List.reverse_reverse]
  · intro x hx
    rw [List.mem_reverse] at hx
    have := List.mem_takeWhile_imp hx
    rwa [beq_iff_eq] at this

theorem sts_candidate {c : List Char} (htr : trim c = c)
    (h : (∃ w, c = w ++ [';'] ∧ ';' ∉ w) ∨ ';' ∉ c) :
    ';' ∉ stripTrailingSemicolons c ∧
      ∃ z, c = stripTrailingSemicolons c ++ z ∧ ∀ x ∈ z, x = ';' := by
  obtain ⟨z, hz, hzall⟩ := sts_decomp c
  rw [htr] at hz
  refine ⟨?_, z, hz, hzall⟩
  intro hmem
  unfold stripTrailingSemicolons at hmem
  rw [htr, List.mem_reverse] at hmem
  rcases h with ⟨w, hc, hw⟩ | hns
  · have hcw : c.reverse = ';' :: w.reverse := by
      rw [hc]
      simp
    have hall : ∀ x ∈ w.reverse, (x == ';') = false := by
      intro x hx
      rw [beq_eq_false_iff_ne]
      intro hxe
      subst hxe
      exact hw (List.mem_reverse.mp hx)
    rw [hcw, List.dropWhile_cons_of_pos (by rfl), dropWhile_eq_self_of_all hall] at hmem
    exact hw (List.mem_reverse.mp hmem)
  · exact hns (List.mem_reverse.mp ((List.dropWhile_suffix _).subset hmem))

/-! ## `enforce_limit` structure -/

theorem trim_ne_nil_of_mem {l : List Char} {x : Char} (hx : x ∈ l) (hw : pySpace x = false) :
    trim l ≠ [] := by
  intro h0
  obtain ⟨a, z, ha, hz, hl⟩ := trim_decomp l
  rw [h0, List.append_nil] at hl
  rw [hl] at hx
  rcases List.mem_append.mp hx with hm | hm
  · rw [ha x hm] at hw
    simp at hw
  · rw [hz x hm] at hw
    simp at hw

theorem natToChars_getLast (d : Nat) :
    ∃ dg, (natToChars d).getLast? = some dg ∧ dg.isDigit = true := by
  obtain ⟨c, hc, hm⟩ := getLast?_of_ne_nil (natToChars_ne_nil d)
  exact ⟨c, hc, natToChars_digits hm⟩

theorem limitWordChars_no_semi {d : Nat} {x : Char}
    (hx : x ∈ 'L' :: 'I' :: 'M' :: 'I' :: 'T' :: ' ' :: natToChars d) : x ≠ ';' := by
  simp only [List.mem_cons] at hx
  rcases hx with rfl | rfl | rfl | rfl | rfl | rfl | hx
  · simp
  · simp
  · simp
  · simp
  · simp
  · simp
  · exact ne_semi_of_isDigit (natToChars_digits hx)

theorem containsLimitNum_limitWord {pre : List Char} {d : Nat}
    (hb : bdry pre.getLast? = true) :
    containsLimitNum (pre ++ 'L' :: 'I' :: 'M' :: 'I' :: 'T' :: ' ' :: natToChars d) = true := by
  rcases hnc : natToChars d with _ | ⟨dg0, dtl⟩
  · exact absurd hnc (natToChars_ne_nil d)
  · have hdg0 : dg0.isDigit = true := natToChars_digits (by rw [hnc]; simp)
    have hat : limitNumAt (['L', 'I', 'M', 'I', 'T'] ++ [' '] ++ dg0 :: dtl) = true :=
      limitNumAt_construct _ (by decide) (by simp)
        (by intro x hx; simp at hx; subst hx; rfl) hdg0
    rw [containsLimitNum_def]
    exact containsLimitNumAux_complete pre none _ (by rw [prevAt_none]; exact hb) hat

theorem containsLimitNum_trim {s : List Char} (h : containsLimitNum s = true) :
    containsLimitNum (trim s) = true := by
  obtain ⟨a, z, ha, hz, hs⟩ := trim_decomp s
  rw [hs, List.append_assoc, containsLimitNum_peel_left ha] at h
  exact containsLimitNum_peel_right hz h

theorem danglingLimit_false_of_last_digit {b : List Char} {dg : Char}
    (hg : b.getLast? = some dg) (hd : dg.isDigit = true) : danglingLimit b = false := by
  by_contra hc
  rw [Bool.not_eq_false] at hc
  exact danglingLimit_last_digit hc hg hd

theorem replaceDanglingLimitAux_decomp (d : Nat) :
    ∀ (l : List Char) (prev : Option Char), danglingLimitAux prev l = true →
      ∃ pre1, replaceDanglingLimitAux d prev l
          = pre1 ++ 'L' :: 'I' :: 'M' :: 'I' :: 'T' :: ' ' :: natToChars d ∧
        bdry (prevAt prev pre1) = true ∧ ∀ x ∈ pre1, x ∈ l := by
  intro l
  induction l with
  | nil => intro prev h; simp [danglingLimitAux] at h
  | cons c cs ih =>
    intro prev h
    unfold danglingLimitAux at h
    unfold replaceDanglingLimitAux
    by_cases hc : (bdry prev && danglingLimitAt (c :: cs)) = true
    · rw [if_pos hc]
      rw [Bool.and_eq_true] at hc
      exact ⟨[], rfl, hc.1, by simp⟩
    · rw [if_neg hc]
      rw [Bool.or_eq_true] at h
      rcases h with h | h
      · exact absurd h hc
      · obtain ⟨pre1, heq, hb, hsub⟩ := ih (some c) h
        refine ⟨c :: pre1, by rw [heq, List.cons_append], by rwa [prevAt_cons], ?_⟩
        intro x hx
        rcases List.mem_cons.mp hx with rfl | hx
        · simp
        · simp [hsub x hx]

/-- The central shape lemma: on a candidate that is trimmed and whose only
semicolon (if any) is final — which `extract_sql_candidate` guarantees —
`enforce_limit` returns `b ++ [';']` where `b` is nonempty, trimmed,
semicolon-free, contains a word-bounded `LIMIT <num>`, and has no dangling
`LIMIT`. -/
theorem enforce_limit_master {c : List Char} (d : Nat) (htr : trim c = c)
    (hsem : (∃ w, c = w ++ [';'] ∧ ';' ∉ w) ∨ ';' ∉ c) :
    ∃ b la, enforce_limit c d = ⟨b ++ [';'], la⟩ ∧ ';' ∉ b ∧ b ≠ [] ∧ trim b = b ∧
      containsLimitNum b = true ∧ danglingLimit b = false := by
  obtain ⟨hs0ns, z, hz, hzall⟩ := sts_candidate htr hsem
  simp only [enforce_limit]
  by_cases hrep : danglingLimit (stripTrailingSemicolons c) = true
  · -- dangling-LIMIT repair path
    obtain ⟨pre1, heq, hbd, hsub⟩ :=
      replaceDanglingLimitAux_decomp d (stripTrailingSemicolons c) none hrep
    rw [prevAt_none] at hbd
    have heq' : replaceDanglingLimit (stripTrailingSemicolons c) d
        = pre1 ++ 'L' :: 'I' :: 'M' :: 'I' :: 'T' :: ' ' :: natToChars d := heq
    obtain ⟨dgl, hdgl, hdig⟩ := natToChars_getLast d
    have hlastS1 : (pre1 ++ 'L' :: 'I' :: 'M' :: 'I' :: 'T' :: ' ' :: natToChars d).getLast?
        = some dgl := by
      rw [List.getLast?_append_of_ne_nil _ (by simp)]
      show (('L' :: 'I' :: 'M' :: 'I' :: 'T' :: (' ' :: natToChars d) : List Char)).getLast?
        = some dgl
      rw [List.getLast?_cons_cons, List.getLast?_cons_cons, List.getLast?_cons_cons,
        List.getLast?_cons_cons, List.getLast?_cons_cons]
      rcases hnc : natToChars d with _ | ⟨x, xs⟩
      · exact absurd hnc (natToChars_ne_nil d)
      · rw [List.getLast?_cons_cons, ← hnc]
        exact hdgl
    have htopS1 : hasTopLevelLimit
        (pre1 ++ 'L' :: 'I' :: 'M' :: 'I' :: 'T' :: ' ' :: natToChars d) = true :=
      hasTopLevelLimit_construct (natToChars_ne_nil d)
        (fun x hx => natToChars_digits hx) hbd
    rw [if_pos hrep, heq']
    have happ' : ¬((!hasTopLevelLimit (pre1 ++ 'L' :: 'I' :: 'M' :: 'I' :: 'T' :: ' '
        :: natToChars d) && !containsLimitNum (pre1 ++ 'L' :: 'I' :: 'M' :: 'I' :: 'T' :: ' '
        :: natToChars d)) = true) := by
      rw [htopS1]
      simp
    rw [if_neg happ', if_neg happ']
    obtain ⟨hbne, hblast⟩ := trim_getLast_of_last hlastS1 (pySpace_of_isDigit hdig)
    have hbns : ';' ∉ trim (pre1 ++ 'L' :: 'I' :: 'M' :: 'I' :: 'T' :: ' ' :: natToChars d) := by
      intro hmem
      have hmem2 := mem_trim hmem
      rcases List.mem_append.mp hmem2 with hm | hm
      · exact hs0ns (hsub _ hm)
      · exact limitWordChars_no_semi hm rfl
    have hcond : ¬((trim (pre1 ++ 'L' :: 'I' :: 'M' :: 'I' :: 'T' :: ' '
        :: natToChars d)).getLast? = some ';') := by
      rw [hblast]
      intro hcon
      obtain rfl : dgl = ';' := by simpa using hcon
      exact absurd hdig (by decide)
    rw [if_neg hcond]
    refine ⟨_, _, rfl, hbns, hbne, trim_idem _, ?_, ?_⟩
    · exact containsLimitNum_trim (containsLimitNum_limitWord hbd)
    · exact danglingLimit_false_of_last_digit hblast hdig
  · -- no dangling repair
    rw [if_neg hrep]
    by_cases happ : (!hasTopLevelLimit (stripTrailingSemicolons c)
        && !containsLimitNum (stripTrailingSemicolons c)) = true
    · -- append "LIMIT d"
      rw [if_pos happ, if_pos happ]
      obtain ⟨dgl, hdgl, hdig⟩ := natToChars_getLast d
      have hlt : (limitTail d).getLast? = some dgl := by
        show ((([' ', 'L', 'I', 'M', 'I', 'T', ' '] : List Char) ++ natToChars d)).getLast?
          = some dgl
        rw [List.getLast?_append_of_ne_nil _ (natToChars_ne_nil d)]
        exact hdgl
      have hlastS2 : (stripTrailingSemicolons c ++ limitTail d).getLast? = some dgl := by
        rw [List.getLast?_append_of_ne_nil _ (by simp [limitTail])]
        exact hlt
      obtain ⟨hbne, hblast⟩ := trim_getLast_of_last hlastS2 (pySpace_of_isDigit hdig)
      have hbns : ';' ∉ trim (stripTrailingSemicolons c ++ limitTail d) := by
        intro hmem
        have hmem2 := mem_trim hmem
        rcases List.mem_append.mp hmem2 with hm | hm
        · exact hs0ns hm
        · rcases List.mem_cons.mp hm with hsp | hm2
          · simp at hsp
          · exact limitWordChars_no_semi hm2 rfl
      have hcond : ¬((trim (stripTrailingSemicolons c ++ limitTail d)).getLast?
          = some ';') := by
        rw [hblast]
        intro hcon
        obtain rfl : dgl = ';' := by simpa using hcon
        exact absurd hdig (by decide)
      rw [if_neg hcond]
      refine ⟨_, _, rfl, hbns, hbne, trim_idem _, ?_, ?_⟩
      · have hshape : stripTrailingSemicolons c ++ limitTail d
            = (stripTrailingSemicolons c ++ [' '])
              ++ 'L' :: 'I' :: 'M' :: 'I' :: 'T' :: ' ' :: natToChars d := by
          simp [limitTail]
        have hcc := @containsLimitNum_limitWord (stripTrailingSemicolons c ++ [' '])
          d (by rw [List.getLast?_concat]; decide)
        rw [← hshape] at hcc
        exact containsLimitNum_trim hcc
      · exact danglingLimit_false_of_last_digit hblast hdig
    · -- keep as is
      rw [if_neg happ, if_neg happ]
      rw [Bool.not_eq_true] at hrep
      have hor : hasTopLevelLimit (stripTrailingSemicolons c) = true ∨
          containsLimitNum (stripTrailingSemicolons c) = true := by
        rcases h1 : hasTopLevelLimit (stripTrailingSemicolons c) with _ | _
        · rcases h2 : containsLimitNum (stripTrailingSemicolons c) with _ | _
          · rw [h1, h2] at happ
            simp at happ
          · exact .inr rfl
        · exact .inl rfl
      have hcont : containsLimitNum (stripTrailingSemicolons c) = true := by
        rcases hor with h1 | h1
        · exact containsLimitNum_of_hasTop h1
        · exact h1
      have hbne : trim (stripTrailingSemicolons c) ≠ [] := by
        obtain ⟨u, v, hbv, -, hat⟩ := containsLimitNumAux_sound none _ hcont
        obtain ⟨w, sp, dg, tl, hvz, -, -, -, hdg⟩ := limitNumAt_decomp hat
        refine trim_ne_nil_of_mem (x := dg) ?_ (pySpace_of_isDigit hdg)
        rw [hbv, hvz]
        simp
      have hbns : ';' ∉ trim (stripTrailingSemicolons c) :=
        fun hmem => hs0ns (mem_trim hmem)
      have hcond : ¬((trim (stripTrailingSemicolons c)).getLast? = some ';') := by
        intro hcon
        exact hbns (List.mem_of_mem_getLast? hcon)
      rw [if_neg hcond]
      refine ⟨_, _, rfl, hbns, hbne, trim_idem _, ?_, ?_⟩
      · exact containsLimitNum_trim hcont
      · exact danglingLimit_trim_false hrep

/-! ## `validate_and_rewrite_select` success structure -/

theorem validate_ok_intro {parse : SqlParser} {sql : List Char} {t : SqlAst} (d : Nat)
    (hne : extract_sql_candidate sql ≠ [])
    (hp : parse (extract_sql_candidate sql) = .ok [some t])
    (hsel : is_select_statement t = true) :
    validate_and_rewrite_select parse sql d
      = .ok (enforce_limit (extract_sql_candidate sql) d) := by
  unfold validate_and_rewrite_select
  rw [if_neg hne, hp]
  dsimp only
  rw [if_neg (by rw [hsel]; simp)]

theorem validate_ok_elim {parse : SqlParser} {sql : List Char} {d : Nat} {r : SafeSQLResult}
    (h : validate_and_rewrite_select parse sql d = .ok r) :
    extract_sql_candidate sql ≠ [] ∧
      (∃ t, parse (extract_sql_candidate sql) = .ok [some t] ∧ is_select_statement t = true) ∧
      r = enforce_limit (extract_sql_candidate sql) d := by
  unfold validate_and_rewrite_select at h
  by_cases h0 : extract_sql_candidate sql = []
  · rw [if_pos h0] at h
    exact Except.noConfusion h
  · rw [if_neg h0] at h
    rcases hp : parse (extract_sql_candidate sql) with e | stmts
    · rw [hp] at h
      exact Except.noConfusion h
    · rw [hp] at h
      rcases stmts with _ | ⟨t0, rest⟩
      · exact Except.noConfusion h
      · rcases t0 with _ | t
        · rcases rest with _ | ⟨r2, rest2⟩
          · exact Except.noConfusion h
          · exact Except.noConfusion h
        · rcases rest with _ | ⟨r2, rest2⟩
          · dsimp only at h
            by_cases hsel : is_select_statement t = false
            · rw [if_pos hsel] at h
              exact Except.noConfusion h
            · rw [if_neg hsel] at h
              rw [Bool.not_eq_false] at hsel
              exact ⟨h0, ⟨t, rfl, hsel⟩, (Except.ok.inj h).symm⟩
          · exact Except.noConfusion h

/-! ## Re-validation of the safe output (for idempotence) -/

theorem trim_concat_semi {b : List Char} (hbne : b ≠ []) (hbtr : trim b = b) :
    trim (b ++ [';']) = b ++ [';'] := by
  rcases b with _ | ⟨c0, bs⟩
  · exact absurd rfl hbne
  · have h0 : pySpace c0 = false := trim_head_false hbtr
    have htr : trimRight ((c0 :: bs) ++ [';']) = (c0 :: bs) ++ [';'] :=
      trimRight_eq_self (List.getLast?_concat _) (by decide)
    have heq : trim ((c0 :: bs) ++ [';']) = ((c0 :: bs) ++ [';']).dropWhile pySpace := by
      unfold trim trimLeft
      rw [htr]
    rw [heq, List.cons_append]
    exact dropWhile_eq_self_of_head h0

theorem sts_concat {b : List Char} (htr : trim (b ++ [';']) = b ++ [';']) (hb : ';' ∉ b) :
    stripTrailingSemicolons (b ++ [';']) = b := by
  unfold stripTrailingSemicolons
  rw [htr]
  have hrev : (b ++ [';']).reverse = ';' :: b.reverse := by simp
  have hall : ∀ x ∈ b.reverse, (x == ';') = false := by
    intro x hx
    rw [beq_eq_false_iff_ne]
    intro hxe
    subst hxe
    exact hb (List.mem_reverse.mp hx)
  rw [hrev, List.dropWhile_cons_of_pos (by rfl), dropWhile_eq_self_of_all hall,
    List.reverse_reverse]

theorem kwAt_head {u : List Char} (h : kwAt u = true) :
    ∃ c0 cs, u = c0 :: cs ∧ (c0.toLower = 's' ∨ c0.toLower = 'w') := by
  unfold kwAt wordAtCI at h
  rw [Bool.or_eq_true, Bool.and_eq_true, Bool.and_eq_true] at h
  rcases h with ⟨hm, -⟩ | ⟨hm, -⟩
  · cases u with
    | nil => simp [matchCI] at hm
    | cons c0 cs =>
      unfold matchCI at hm
      rw [Bool.and_eq_true, beq_iff_eq] at hm
      exact ⟨c0, cs, rfl, .inl hm.1⟩
  · cases u with
    | nil => simp [matchCI] at hm
    | cons c0 cs =>
      unfold matchCI at hm
      rw [Bool.and_eq_true, beq_iff_eq] at hm
      exact ⟨c0, cs, rfl, .inr hm.1⟩

theorem fenceStage_eq_self_of_kwAt {u : List Char} (h : kwAt u = true) :
    fenceStage u = u := by
  obtain ⟨c0, cs, rfl, h0⟩ := kwAt_head h
  unfold fenceStage
  rw [if_neg]
  intro hpf
  have hc0 : c0 = '\x60' := by
    have hpf' := hpf
    unfold bq3 List.isPrefixOf at hpf'
    rw [Bool.and_eq_true, beq_iff_eq] at hpf'
    exact hpf'.1.symm
  subst hc0
  rcases h0 with h0 | h0 <;> exact absurd h0 (by decide)

theorem dropLabel_eq_self_of_kwAt {u : List Char} (h : kwAt u = true) :
    dropLabel u = u := by
  unfold kwAt wordAtCI at h
  rw [Bool.or_eq_true, Bool.and_eq_true, Bool.and_eq_true] at h
  unfold dropLabel
  rcases h with ⟨hm, -⟩ | ⟨hm, -⟩
  · rcases u with _ | ⟨c0, _ | ⟨c1, rest⟩⟩
    · simp [matchCI] at hm
    · simp [matchCI] at hm
    · unfold matchCI at hm
      rw [Bool.and_eq_true, beq_iff_eq] at hm
      obtain ⟨h0, hm1⟩ := hm
      unfold matchCI at hm1
      rw [Bool.and_eq_true, beq_iff_eq] at hm1
      obtain ⟨h1, -⟩ := hm1
      rw [if_neg (by simp [matchCI, h0, h1]), if_neg (by simp [matchCI, h0])]
  · rcases u with _ | ⟨c0, cs⟩
    · simp [matchCI] at hm
    · unfold matchCI at hm
      rw [Bool.and_eq_true, beq_iff_eq] at hm
      obtain ⟨h0, -⟩ := hm
      rw [if_neg (by simp [matchCI, h0]), if_neg (by simp [matchCI, h0])]

theorem findSemiAux_concat : ∀ (b : List Char) (i : Nat), ';' ∉ b →
    findSemiAux (b ++ [';']) i = some (i + b.length) := by
  intro b
  induction b with
  | nil =>
    intro i _
    simp [findSemiAux]
  | cons c cs ih =>
    intro i hni
    rw [List.cons_append]
    unfold findSemiAux
    have hcne : ¬((c == ';') = true) := by
      intro hcc
      rw [beq_iff_eq] at hcc
      subst hcc
      exact hni (by simp)
    rw [if_neg hcne, ih (i + 1) (fun hm => hni (List.mem_cons_of_mem c hm))]
    congr 1
    simp only [List.length_cons]
    omega

theorem extract_concat_of_kwAt {b : List Char} (hbne : b ≠ []) (hbtr : trim b = b)
    (hbns : ';' ∉ b) (hkw : kwAt (b ++ [';']) = true) :
    extract_sql_candidate (b ++ [';']) = b ++ [';'] := by
  have hutr : trim (b ++ [';']) = b ++ [';'] := trim_concat_semi hbne hbtr
  have hfs : findSemi (b ++ [';']) = some b.length := by
    unfold findSemi
    rw [findSemiAux_concat b 0 hbns, Nat.zero_add]
  have htake : (b ++ [';']).take (b.length + 1) = b ++ [';'] := by
    rw [List.take_append]
    rfl
  unfold extract_sql_candidate
  rw [if_neg (by simp), hutr, fenceStage_eq_self_of_kwAt hkw,
    dropLabel_eq_self_of_kwAt hkw, hutr, kwStage_eq_some (findKw_zero_of_kwAt hkw),
    if_neg (by omega), semiStage_eq_some hfs, htake, hutr]

theorem enforce_limit_second {b : List Char} (d : Nat) (hbne : b ≠ []) (hbtr : trim b = b)
    (hbns : ';' ∉ b) (hbcont : containsLimitNum b = true) (hbdang : danglingLimit b = false) :
    enforce_limit (b ++ [';']) d = ⟨b ++ [';'], false⟩ := by
  have hutr : trim (b ++ [';']) = b ++ [';'] := trim_concat_semi hbne hbtr
  have hsts : stripTrailingSemicolons (b ++ [';']) = b := sts_concat hutr hbns
  simp only [enforce_limit]
  rw [hsts]
  have hrepif : ¬(danglingLimit b = true) := by
    rw [hbdang]
    exact Bool.false_ne_true
  rw [if_neg hrepif]
  have happ : ¬((!hasTopLevelLimit b && !containsLimitNum b) = true) := by
    rw [hbcont]
    simp
  rw [if_neg happ, if_neg happ, hbtr]
  have hcond : ¬((b : List Char).getLast? = some ';') :=
    fun hcon => hbns (List.mem_of_mem_getLast? hcon)
  rw [if_neg hcond, hbdang]

/-! ## `enforce_limit`: the keep branch and the append branch in isolation -/

theorem enforce_limit_keep {c : List Char} (d : Nat)
    (htop : hasTopLevelLimit (stripTrailingSemicolons c) = true) :
    enforce_limit c d = ⟨trim (stripTrailingSemicolons c) ++ [';'], false⟩ := by
  have hrep : danglingLimit (stripTrailingSemicolons c) = false :=
    danglingLimit_false_of_hasTop htop
  simp only [enforce_limit]
  have hrepif : ¬(danglingLimit (stripTrailingSemicolons c) = true) := by
    rw [hrep]
    exact Bool.false_ne_true
  rw [if_neg hrepif]
  have happ : ¬((!hasTopLevelLimit (stripTrailingSemicolons c)
      && !containsLimitNum (stripTrailingSemicolons c)) = true) := by
    rw [htop]
    simp
  rw [if_neg happ, if_neg happ]
  obtain ⟨dg, hdig, hne, hlast⟩ := hasTopLevelLimit_getLast htop
  have hcond : ¬((trim (stripTrailingSemicolons c)).getLast? = some ';') := by
    rw [hlast]
    intro hcon
    obtain rfl : dg = ';' := by simpa using hcon
    exact absurd hdig (by decide)
  rw [if_neg hcond, hrep]

theorem trim_append_block {y : List Char} (X : List Char) {x0 : Char} {xs : List Char}
    (hX : X = x0 :: xs) (hx0 : pySpace x0 = false) {xl : Char}
    (hxl : (y ++ X).getLast? = some xl) (hxlw : pySpace xl = false) :
    ∃ w, trim (y ++ X) = w ++ X := by
  have htr : trimRight (y ++ X) = y ++ X := trimRight_eq_self hxl hxlw
  have heq : trim (y ++ X) = (y ++ X).dropWhile pySpace := by
    unfold trim trimLeft
    rw [htr]
  rw [heq, List.dropWhile_append]
  by_cases hye : (y.dropWhile pySpace).isEmpty
  · rw [if_pos hye]
    refine ⟨[], ?_⟩
    rw [hX, dropWhile_eq_self_of_head hx0, List.nil_append]
  · rw [if_neg hye]
    exact ⟨y.dropWhile pySpace, rfl⟩

theorem enforce_limit_append {c : List Char} (d : Nat) (htr : trim c = c)
    (hnl : occursCI ['l', 'i', 'm', 'i', 't'] c = false) :
    ∃ w, enforce_limit c d
      = ⟨w ++ 'L' :: 'I' :: 'M' :: 'I' :: 'T' :: ' ' :: (natToChars d ++ [';']), true⟩ := by
  obtain ⟨z, hz, hzall⟩ := sts_decomp c
  rw [htr] at hz
  have hnl0 : occursCI ['l', 'i', 'm', 'i', 't'] (stripTrailingSemicolons c) = false := by
    by_contra hcc
    rw [Bool.not_eq_false] at hcc
    have h2 := occursCI_append_right z hcc
    rw [← hz, hnl] at h2
    exact Bool.false_ne_true h2
  have hrep : danglingLimit (stripTrailingSemicolons c) = false := by
    by_contra hcc
    rw [Bool.not_eq_false] at hcc
    exact absurd (occursCI_limit_of_dangling hcc) (by rw [hnl0]; simp)
  have htop : hasTopLevelLimit (stripTrailingSemicolons c) = false := by
    by_contra hcc
    rw [Bool.not_eq_false] at hcc
    exact absurd (occursCI_limit_of_hasTop hcc) (by rw [hnl0]; simp)
  have hcont : containsLimitNum (stripTrailingSemicolons c) = false := by
    by_contra hcc
    rw [Bool.not_eq_false] at hcc
    exact absurd (occursCI_limit_of_contains hcc) (by rw [hnl0]; simp)
  simp only [enforce_limit]
  have hrepif : ¬(danglingLimit (stripTrailingSemicolons c) = true) := by
    rw [hrep]
    exact Bool.false_ne_true
  rw [if_neg hrepif]
  have happ : (!hasTopLevelLimit (stripTrailingSemicolons c)
      && !containsLimitNum (stripTrailingSemicolons c)) = true := by
    rw [htop, hcont]
    rfl
  rw [if_pos happ, if_pos happ]
  obtain ⟨dgl, hdgl, hdig⟩ := natToChars_getLast d
  have hlt : (limitTail d).getLast? = some dgl := by
    show ((([' ', 'L', 'I', 'M', 'I', 'T', ' '] : List Char) ++ natToChars d)).getLast?
      = some dgl
    rw [List.getLast?_append_of_ne_nil _ (natToChars_ne_nil d)]
    exact hdgl
  have hshape : stripTrailingSemicolons c ++ limitTail d
      = (stripTrailingSemicolons c ++ [' '])
        ++ 'L' :: 'I' :: 'M' :: 'I' :: 'T' :: ' ' :: natToChars d := by
    simp [limitTail]
  have hlastS2 : ((stripTrailingSemicolons c ++ [' '])
      ++ 'L' :: 'I' :: 'M' :: 'I' :: 'T' :: ' ' :: natToChars d).getLast? = some dgl := by
    rw [← hshape, List.getLast?_append_of_ne_nil _ (by simp [limitTail])]
    exact hlt
  obtain ⟨w, hw⟩ := trim_append_block
    ('L' :: 'I' :: 'M' :: 'I' :: 'T' :: ' ' :: natToChars d) rfl (by decide)
    hlastS2 (pySpace_of_isDigit hdig)
  have hcond : ¬((trim (stripTrailingSemicolons c ++ limitTail d)).getLast? = some ';') := by
    rw [hshape, hw, List.getLast?_append_of_ne_nil _ (by simp)]
    have hxl : (('L' :: 'I' :: 'M' :: 'I' :: 'T' :: ' ' :: natToChars d : List Char)).getLast?
        = some dgl := by
      rw [List.getLast?_cons_cons, List.getLast?_cons_cons, List.getLast?_cons_cons,
        List.getLast?_cons_cons, List.getLast?_cons_cons]
      rcases hnc : natToChars d with _ | ⟨x, tl⟩
      · exact absurd hnc (natToChars_ne_nil d)
      · rw [List.getLast?_cons_cons, ← hnc]
        exact hdgl
    rw [hxl]
    intro hcon
    obtain rfl : dgl = ';' := by simpa using hcon
    exact absurd hdig (by decide)
  rw [if_neg hcond, hshape, hw]
  exact ⟨w, by simp⟩

/-! ## Rate limiter facts -/

theorem lookupHits_setHits (m : RLState) (key : List Char) (v : List ℚ) :
    lookupHits (setHits m key v) key = v := by
  induction m with
  | nil =>
    simp [setHits, lookupHits, List.lookup]
  | cons kv rest ih =>
    obtain ⟨k, w⟩ := kv
    unfold setHits
    by_cases hk : k = key
    · rw [if_pos hk]
      simp [lookupHits, List.lookup]
    · rw [if_neg hk]
      unfold lookupHits at ih ⊢
      rw [show List.lookup key ((k, w) :: setHits rest key v)
          = List.lookup key (setHits rest key v) by
        simp [List.lookup, beq_eq_false_iff_ne.mpr (fun hh => hk hh.symm)]]
      exact ih

theorem check_denied {m : RLState} {key : List Char} {now : ℚ} {N W : Int}
    (hN : 0 < N) (hW : 0 < W)
    (hall : ∀ x ∈ lookupHits m key, now - (W : ℚ) ≤ x)
    (hge : N ≤ ((lookupHits m key).length : Int)) :
    check_rate_limit m key now N W
      = ((false, max 0 ((W : ℚ) - (now - (lookupHits m key).headD 0))),
          setHits m key (lookupHits m key)) := by
  have hfil : (lookupHits m key).filter (fun x => now - (W : ℚ) ≤ x) = lookupHits m key :=
    List.filter_eq_self.mpr (fun a ha => by simpa using hall a ha)
  simp only [check_rate_limit]
  rw [if_neg (by push_neg; exact ⟨hN, hW⟩), hfil, if_pos hge]

theorem check_allowed {m : RLState} {key : List Char} {now : ℚ} {N W : Int}
    (hN : 0 < N) (hW : 0 < W)
    (hlt : (((lookupHits m key).filter (fun x => now - (W : ℚ) ≤ x)).length : Int) < N) :
    (check_rate_limit m key now N W).1.1 = true := by
  simp only [check_rate_limit]
  rw [if_neg (by push_neg; exact ⟨hN, hW⟩), if_neg (not_le.mpr hlt)]

theorem runKeyChecks_all_admitted (key : List Char) (N W : Int)
    (hN : 0 < N) (hW : 0 < W) (lo : ℚ) :
    ∀ (ts : List ℚ) (m : RLState),
      (∀ x ∈ lookupHits m key, lo ≤ x ∧ x < lo + (W : ℚ)) →
      (∀ t ∈ ts, lo ≤ t ∧ t < lo + (W : ℚ)) →
      (((lookupHits m key).length : Int) + (ts.length : Int) ≤ N) →
      (runKeyChecks m key ts N W).1 = List.replicate ts.length true ∧
        lookupHits (runKeyChecks m key ts N W).2 key = lookupHits m key ++ ts := by
  intro ts
  induction ts with
  | nil =>
    intro m hcur hts hlen
    refine ⟨rfl, ?_⟩
    rw [List.append_nil]
    rfl
  | cons t rest ih =>
    intro m hcur hts hlen
    have htt := hts t (by simp)
    have hfil : (lookupHits m key).filter (fun x => t - (W : ℚ) ≤ x) = lookupHits m key := by
      refine List.filter_eq_self.mpr (fun a ha => ?_)
      have haa := hcur a ha
      simp only [decide_eq_true_eq]
      linarith [haa.1, htt.2]
    have hlt : ¬(N ≤ ((lookupHits m key).length : Int)) := by
      simp only [List.length_cons] at hlen
      push_neg
      omega
    have hck : check_rate_limit m key t N W
        = ((true, 0), setHits m key (lookupHits m key ++ [t])) := by
      simp only [check_rate_limit]
      rw [if_neg (by push_neg; exact ⟨hN, hW⟩), hfil, if_neg hlt]
    have hcur2 : ∀ x ∈ lookupHits (setHits m key (lookupHits m key ++ [t])) key,
        lo ≤ x ∧ x < lo + (W : ℚ) := by
      rw [lookupHits_setHits]
      intro x hx
      rcases List.mem_append.mp hx with hx1 | hx2
      · exact hcur x hx1
      · obtain rfl : x = t := by simpa using hx2
        exact htt
    have hts2 : ∀ u ∈ rest, lo ≤ u ∧ u < lo + (W : ℚ) :=
      fun u hu => hts u (List.mem_cons_of_mem t hu)
    have hlen2 : ((lookupHits (setHits m key (lookupHits m key ++ [t])) key).length : Int)
        + (rest.length : Int) ≤ N := by
      rw [lookupHits_setHits, List.length_append]
      simp only [List.length_cons] at hlen
      simp only [List.length_singleton]
      omega
    obtain ⟨ih1, ih2⟩ := ih (setHits m key (lookupHits m key ++ [t])) hcur2 hts2 hlen2
    constructor
    · simp only [runKeyChecks]
      rw [hck]
      dsimp only
      rw [ih1, List.length_cons, List.replicate_succ]
    · simp only [runKeyChecks]
      rw [hck]
      dsimp only
      rw [ih2, lookupHits_setHits, List.append_assoc, List.singleton_append]

/-! ## Claim theorems -/

/-- **C1** (code bug, evaluation at the failing input).  On
`"SELECT 1; DROP TABLE STUDENT"` the validator does **not** fail with a
`MultipleStatements` safety error: `extract_sql_candidate` truncates the text
at the first semicolon, so the parser sees only `"SELECT 1;"` and the call
returns `SafeSQLResult("SELECT 1 LIMIT 100;", limit_added=True)` — the repo's
own test `test_blocks_multi_statement` expects `SQLSafetyError` here. -/
theorem c1_multi_statement_not_rejected :
    validate_and_rewrite_select sqlglotModel ("SELECT 1; DROP TABLE STUDENT".toList) 100 =
      .ok ⟨"SELECT 1 LIMIT 100;".toList, true⟩ := by
  rfl

/-- **C5** (code bug, evaluation at the failing input).  `extract_sql_candidate`
*does* truncate at the first semicolon: the content after it
(`" DROP TABLE STUDENT"`) is discarded, so multi-statement text never reaches
the validator intact. -/
theorem c5_extractor_truncates_at_semicolon :
    extract_sql_candidate ("SELECT 1; DROP TABLE STUDENT".toList) =
      "SELECT 1;".toList := by
  rfl

/-- **C2** (counterexample).  `'INSERT INTO T SELECT * FROM U'` is not
rejected: the extractor's jump-to-first-`SELECT` discards the `INSERT INTO T`
prefix and the remaining `SELECT * FROM U` is accepted. -/
theorem c2_insert_with_embedded_select_not_rejected :
    validate_and_rewrite_select sqlglotModel ("INSERT INTO T SELECT * FROM U".toList) 100 =
      .ok ⟨"SELECT * FROM U LIMIT 100;".toList, true⟩ := by
  rfl

/-- **C3** (counterexample).  A read-only statement whose only `LIMIT` clause
sits inside a subquery gets `limit_added = false` and **no** outermost `LIMIT`:
the extra `re.search(r"\bLIMIT\b\s+\d+", s)` condition on safety.py line 100
sees the inner `LIMIT 5` and suppresses the append. -/
theorem c3_subquery_limit_suppresses_enforcement :
    validate_and_rewrite_select sqlglotModel
        ("SELECT * FROM (SELECT * FROM T LIMIT 5) X".toList) 100 =
      .ok ⟨"SELECT * FROM (SELECT * FROM T LIMIT 5) X;".toList, false⟩ := by
  rfl

/-- **C2** (amended).  The guarantee that does hold: whenever the parser
classifies the extracted candidate as a single statement whose AST is not
read-only (`_is_select_statement` returns false — every insert / update /
delete / drop / alter / create), `validate_and_rewrite_select` fails with the
`NotReadOnly` safety error.  (The original claim fails only because the
extractor can rewrite a non-SELECT input into a SELECT candidate before the
parser ever sees it, as the C2 counterexample shows.) -/
theorem c2_non_select_rejected (parse : SqlParser) (sql : List Char) (d : Nat) (t : SqlAst)
    (hne : extract_sql_candidate sql ≠ [])
    (hp : parse (extract_sql_candidate sql) = .ok [some t])
    (hsel : is_select_statement t = false) :
    validate_and_rewrite_select parse sql d = .error .notReadOnly := by
  unfold validate_and_rewrite_select
  rw [if_neg hne, hp]
  dsimp only
  rw [if_pos hsel]

/-- Witness for the amended C2 theorem: `DELETE FROM STUDENT` parses as a
single `delete` statement and is rejected with `NotReadOnly`. -/
theorem c2_non_select_rejected_witness :
    extract_sql_candidate ("DELETE FROM STUDENT".toList) ≠ [] ∧
      sqlglotModel (extract_sql_candidate ("DELETE FROM STUDENT".toList))
        = .ok [some .delete] ∧
      is_select_statement .delete = false ∧
      validate_and_rewrite_select sqlglotModel ("DELETE FROM STUDENT".toList) 100
        = .error .notReadOnly :=
  ⟨by decide, by rfl, by rfl,
    c2_non_select_rejected sqlglotModel ("DELETE FROM STUDENT".toList) 100 .delete
      (by decide) (by rfl) rfl⟩

/-- **C3** (amended).  The guarantee that does hold: for every candidate that
is accepted as a single SELECT and contains **no** occurrence of the word
`limit` (case-insensitively) anywhere, the validator returns
`limit_added = true` and a SQL string ending in `LIMIT default ;` — the
appended outermost bound equals the configured default.  (The original claim
also covered statements whose only `LIMIT` sits inside a subquery, and those
are the C3 counterexample: the `\bLIMIT\b\s+\d+` search on safety.py line 100
matches the inner clause and suppresses the append.) -/
theorem c3_no_limit_appends_default (parse : SqlParser) (sql : List Char) (d : Nat) (t : SqlAst)
    (hne : extract_sql_candidate sql ≠ [])
    (hp : parse (extract_sql_candidate sql) = .ok [some t])
    (hsel : is_select_statement t = true)
    (hnl : occursCI ['l', 'i', 'm', 'i', 't'] (extract_sql_candidate sql) = false) :
    ∃ r w, validate_and_rewrite_select parse sql d = .ok r ∧
      r.limit_added = true ∧
      r.sql = w ++ 'L' :: 'I' :: 'M' :: 'I' :: 'T' :: ' ' :: (natToChars d ++ [';']) := by
  obtain ⟨w, hw⟩ := enforce_limit_append d (trim_extract sql) hnl
  refine ⟨enforce_limit (extract_sql_candidate sql) d, w,
    validate_ok_intro d hne hp hsel, ?_, ?_⟩
  · rw [hw]
  · rw [hw]

/-- Witness for the amended C3 theorem: `SELECT * FROM STUDENT` (no `limit`
anywhere) is returned as `SELECT * FROM STUDENT LIMIT 100;` with
`limit_added = true`. -/
theorem c3_no_limit_appends_default_witness :
    ∃ r w, validate_and_rewrite_select sqlglotModel ("SELECT * FROM STUDENT".toList) 100
        = .ok r ∧
      r.limit_added = true ∧
      r.sql = w ++ 'L' :: 'I' :: 'M' :: 'I' :: 'T' :: ' ' :: (natToChars 100 ++ [';']) :=
  c3_no_limit_appends_default sqlglotModel ("SELECT * FROM STUDENT".toList) 100 .select
    (by decide) (by rfl) rfl (by decide)

/-- **C6** (confirmed).  If the stripped candidate already carries a top-level
`LIMIT` clause (`_has_top_level_limit` is true), the validator accepts with
`limit_added = false`, and the returned SQL is the stripped candidate itself
(only whitespace-trimmed, with the final `;` restored) — every character of
the statement, in particular its bound value, is preserved unchanged. -/
theorem c6_existing_limit_preserved (parse : SqlParser) (sql : List Char) (d : Nat) (t : SqlAst)
    (hne : extract_sql_candidate sql ≠ [])
    (hp : parse (extract_sql_candidate sql) = .ok [some t])
    (hsel : is_select_statement t = true)
    (htop : hasTopLevelLimit (stripTrailingSemicolons (extract_sql_candidate sql)) = true) :
    validate_and_rewrite_select parse sql d
      = .ok ⟨trim (stripTrailingSemicolons (extract_sql_candidate sql)) ++ [';'], false⟩ := by
  rw [validate_ok_intro d hne hp hsel, enforce_limit_keep d htop]

/-- Witness for C6: `SELECT * FROM STUDENT LIMIT 10` with default 50 comes
back unchanged (plus the final semicolon) and `limit_added = false`. -/
theorem c6_existing_limit_preserved_witness :
    hasTopLevelLimit (stripTrailingSemicolons
        (extract_sql_candidate ("SELECT * FROM STUDENT LIMIT 10".toList))) = true ∧
      validate_and_rewrite_select sqlglotModel
          ("SELECT * FROM STUDENT LIMIT 10".toList) 50
        = .ok ⟨"SELECT * FROM STUDENT LIMIT 10;".toList, false⟩ :=
  ⟨by decide,
    c6_existing_limit_preserved sqlglotModel ("SELECT * FROM STUDENT LIMIT 10".toList) 50
      .select (by decide) (by rfl) rfl (by decide)⟩

/-- **C7** (confirmed).  Idempotence of the safety gate on its own output: if
`validate_and_rewrite_select` accepted some input and returned `r`, and the
returned safe SQL `r.sql` begins with its `SELECT`/`WITH` keyword (true of
every statement the parser interface accepts) and is again parsed as a single
SELECT, then re-running the validator on `r.sql` returns exactly `r.sql`
again with `limit_added = false`. -/
theorem c7_validate_idempotent (parse : SqlParser) (sql : List Char) (d : Nat)
    (r : SafeSQLResult) (u : SqlAst)
    (h : validate_and_rewrite_select parse sql d = .ok r)
    (hkw : kwAt r.sql = true)
    (hp2 : parse r.sql = .ok [some u])
    (hsel2 : is_select_statement u = true) :
    validate_and_rewrite_select parse r.sql d = .ok ⟨r.sql, false⟩ := by
  obtain ⟨-, -, hr⟩ := validate_ok_elim h
  obtain ⟨b, la, henf, hbns, hbne, hbtr, hbcont, hbdang⟩ :=
    enforce_limit_master d (trim_extract sql) (extract_semis sql)
  have hrs : r.sql = b ++ [';'] := by rw [hr, henf]
  rw [hrs] at hkw hp2 ⊢
  have hext : extract_sql_candidate (b ++ [';']) = b ++ [';'] :=
    extract_concat_of_kwAt hbne hbtr hbns hkw
  have hne2 : extract_sql_candidate (b ++ [';']) ≠ [] := by
    rw [hext]
    simp
  rw [validate_ok_intro d hne2 (by rw [hext]; exact hp2) hsel2, hext,
    enforce_limit_second d hbne hbtr hbns hbcont hbdang]

/-- Witness for C7: the gate turns `SELECT * FROM STUDENT` into
`SELECT * FROM STUDENT LIMIT 100;`, and a second run on that output returns
it verbatim with `limit_added = false`. -/
theorem c7_validate_idempotent_witness :
    validate_and_rewrite_select sqlglotModel ("SELECT * FROM STUDENT".toList) 100
        = .ok ⟨"SELECT * FROM STUDENT LIMIT 100;".toList, true⟩ ∧
      validate_and_rewrite_select sqlglotModel
          ("SELECT * FROM STUDENT LIMIT 100;".toList) 100
        = .ok ⟨"SELECT * FROM STUDENT LIMIT 100;".toList, false⟩ := by
  constructor
  · rfl
  · exact c7_validate_idempotent sqlglotModel ("SELECT * FROM STUDENT".toList) 100
      ⟨"SELECT * FROM STUDENT LIMIT 100;".toList, true⟩ .select (by rfl) (by decide)
      (by rfl) rfl

/-- **C10** (confirmed).  Every accepted result's `sql` field contains exactly
one semicolon, as its final character; consequently `_prepare_for_execute`
never takes its interior-semicolon `ValueError` branch on safe SQL and simply
strips the final semicolon. -/
theorem c10_safe_sql_single_semicolon (parse : SqlParser) (sql : List Char) (d : Nat)
    (r : SafeSQLResult) (h : validate_and_rewrite_select parse sql d = .ok r) :
    r.sql.count ';' = 1 ∧ r.sql.getLast? = some ';' ∧
      prepare_for_execute r.sql = .ok r.sql.dropLast := by
  obtain ⟨-, -, hr⟩ := validate_ok_elim h
  obtain ⟨b, la, henf, hbns, hbne, hbtr, hbcont, hbdang⟩ :=
    enforce_limit_master d (trim_extract sql) (extract_semis sql)
  have hrs : r.sql = b ++ [';'] := by rw [hr, henf]
  refine ⟨?_, ?_, ?_⟩
  · rw [hrs, List.count_append, List.count_eq_zero.mpr hbns]
    rfl
  · rw [hrs, List.getLast?_concat]
  · rw [hrs]
    unfold prepare_for_execute
    rw [sts_concat (trim_concat_semi hbne hbtr) hbns, if_neg hbns, List.dropLast_concat]

/-- **C4** (confirmed).  Sliding-window rate limiting for one key: with
`max_requests = N > 0` and `window_sec = W > 0`, starting from a state holding
no timestamps for the key, `N` checks at times inside one window
`[t0, t0 + W)` are all admitted; an `(N+1)`-th check still inside the window
is denied; and once the clock passes `t0 + W` — one window past the oldest
recorded timestamp `t0` — the next check for the key is admitted again. -/
theorem c4_rate_limit_window (key : List Char) (N W : Int) (m : RLState)
    (ts : List ℚ) (t0 r' r'' : ℚ)
    (hN : 0 < N) (hW : 0 < W)
    (hm : lookupHits m key = [])
    (hlen : (ts.length : Int) = N)
    (hmem : t0 ∈ ts)
    (hts : ∀ t ∈ ts, t0 ≤ t ∧ t < t0 + (W : ℚ))
    (hr1 : t0 ≤ r' ∧ r' < t0 + (W : ℚ))
    (hr2 : t0 + (W : ℚ) < r'') :
    (runKeyChecks m key ts N W).1 = List.replicate ts.length true ∧
      (check_rate_limit (runKeyChecks m key ts N W).2 key r' N W).1.1 = false ∧
      (check_rate_limit (check_rate_limit (runKeyChecks m key ts N W).2 key r' N W).2
          key r'' N W).1.1 = true := by
  obtain ⟨h1, h2⟩ := runKeyChecks_all_admitted key N W hN hW t0 ts m
    (by rw [hm]; intro x hx; cases hx) hts (by rw [hm]; simp; omega)
  have hlook1 : lookupHits (runKeyChecks m key ts N W).2 key = ts := by
    rw [h2, hm, List.nil_append]
  have hall1 : ∀ x ∈ lookupHits (runKeyChecks m key ts N W).2 key, r' - (W : ℚ) ≤ x := by
    rw [hlook1]
    intro x hx
    have := hts x hx
    linarith [hr1.2, this.1]
  have hge1 : N ≤ ((lookupHits (runKeyChecks m key ts N W).2 key).length : Int) := by
    rw [hlook1, hlen]
  have hck2 := check_denied hN hW hall1 hge1
  refine ⟨h1, by rw [hck2], ?_⟩
  have hlook3 : lookupHits (check_rate_limit (runKeyChecks m key ts N W).2 key r' N W).2 key
      = ts := by
    rw [hck2]
    dsimp only
    rw [lookupHits_setHits, hlook1]
  apply check_allowed hN hW
  rw [hlook3]
  have hlt : (ts.filter (fun x => r'' - (W : ℚ) ≤ x)).length < ts.length := by
    rw [List.length_filter_lt_length_iff_exists]
    refine ⟨t0, hmem, ?_⟩
    simp only [decide_eq_true_eq]
    intro hcon
    linarith
  omega

/-- Witness for C4: key `k`, limit 2 per 10 seconds, checks at times 0 and 1
admitted, a third at time 5 denied, and a later one at time 11 admitted. -/
theorem c4_rate_limit_window_witness :
    (runKeyChecks [] ("k".toList) [(0:ℚ), 1] 2 10).1 = List.replicate 2 true ∧
      (check_rate_limit (runKeyChecks [] ("k".toList) [(0:ℚ), 1] 2 10).2
          ("k".toList) 5 2 10).1.1 = false ∧
      (check_rate_limit
          (check_rate_limit (runKeyChecks [] ("k".toList) [(0:ℚ), 1] 2 10).2
            ("k".toList) 5 2 10).2 ("k".toList) 11 2 10).1.1 = true :=
  c4_rate_limit_window ("k".toList) 2 10 [] [(0:ℚ), 1] 0 5 11 (by decide) (by decide)
    rfl rfl (by simp) (by intro t ht; fin_cases ht <;> norm_num) (by norm_num) (by norm_num)

/-- **C8** (confirmed).  A denied `check_rate_limit` call does not consume a
slot: the stored list for the key becomes exactly the pruned list (a sublist
of what was stored — entries older than the window removed, nothing added),
and the returned `retry_after` is `window_sec - (now - oldest surviving
timestamp)` clamped to at least 0. -/
theorem c8_denied_frame (m : RLState) (key : List Char) (now : ℚ) (N W : Int)
    (hden : (check_rate_limit m key now N W).1.1 = false) :
    lookupHits (check_rate_limit m key now N W).2 key
        = (lookupHits m key).filter (fun x => now - (W : ℚ) ≤ x) ∧
      ((lookupHits m key).filter (fun x => now - (W : ℚ) ≤ x)).Sublist (lookupHits m key) ∧
      (check_rate_limit m key now N W).1.2
        = max 0 ((W : ℚ) - (now
            - ((lookupHits m key).filter (fun x => now - (W : ℚ) ≤ x)).headD 0)) := by
  by_cases h0 : N ≤ 0 ∨ W ≤ 0
  · unfold check_rate_limit at hden
    rw [if_pos h0] at hden
    exact absurd hden (by simp)
  · by_cases hbr : N ≤ (((lookupHits m key).filter (fun x => now - (W : ℚ) ≤ x)).length : Int)
    · have hck : check_rate_limit m key now N W
          = ((false, max 0 ((W : ℚ) - (now
              - ((lookupHits m key).filter (fun x => now - (W : ℚ) ≤ x)).headD 0))),
            setHits m key ((lookupHits m key).filter (fun x => now - (W : ℚ) ≤ x))) := by
        simp only [check_rate_limit]
        rw [if_neg h0, if_pos hbr]
      rw [hck]
      exact ⟨lookupHits_setHits m key _, List.filter_sublist _, rfl⟩
    · have hck : (check_rate_limit m key now N W).1.1 = true := by
        simp only [check_rate_limit]
        rw [if_neg h0, if_neg hbr]
      rw [hck] at hden
      exact absurd hden (by simp)

/-- Witness for C8: key `k` stored `[0]`, limit 1 per 10 seconds, check at
time 5 is denied; the stored list stays `[0]` and `retry_after = 5`. -/
theorem c8_denied_frame_witness :
    (check_rate_limit [("k".toList, [(0:ℚ)])] ("k".toList) 5 1 10).1.1 = false ∧
      lookupHits (check_rate_limit [("k".toList, [(0:ℚ)])] ("k".toList) 5 1 10).2
          ("k".toList) = [(0:ℚ)] ∧
      (check_rate_limit [("k".toList, [(0:ℚ)])] ("k".toList) 5 1 10).1.2 = 5 := by
  have hlk : lookupHits [("k".toList, [(0:ℚ)])] ("k".toList) = [(0:ℚ)] := by
    simp [lookupHits, List.lookup]
  have hall : ∀ x ∈ lookupHits [("k".toList, [(0:ℚ)])] ("k".toList),
      (5:ℚ) - ((10 : Int) : ℚ) ≤ x := by
    rw [hlk]
    intro x hx
    fin_cases hx
    norm_num
  have hge : (1 : Int) ≤ ((lookupHits [("k".toList, [(0:ℚ)])] ("k".toList)).length : Int) := by
    rw [hlk]
    norm_num
  have hck := check_denied (by decide) (by decide) hall hge
  have h := c8_denied_frame [("k".toList, [(0:ℚ)])] ("k".toList) 5 1 10 (by rw [hck])
  refine ⟨by rw [hck], ?_, ?_⟩
  · rw [h.1, hlk]
    simp only [List.filter_cons, decide_eq_true_eq]
    norm_num
  · rw [h.2.2, hlk]
    simp only [List.filter_cons, decide_eq_true_eq]
    norm_num [max_def]

/-- **C9** (counterexample).  `log_event` has no `except` handler: when the
`INSERT` step fails, the failure **is** propagated to the caller instead of
being swallowed, contradicting the claim that persistence failures never fail
the caller's request. -/
theorem c9_log_failure_propagates :
    log_event (.ok ()) (fun _ => .error (.failure ("disk error".toList)))
        ⟨[], [], [], [], [], [], [], [], false, none, none, none⟩
      = .error (.failure ("disk error".toList)) := by
  rfl

/-- **C9** (amended).  What the code actually guarantees is the opposite
discipline: `log_event` is transparent to failure.  Whenever the insert step
fails, `log_event` returns that very error to its caller (and likewise an
`_init_db` failure propagates, by the first `match` arm). -/
theorem c9_insert_failure_propagates
    (insertRecord : QueryLogRecord → Except DbError Int)
    (record : QueryLogRecord) (e : DbError)
    (h : insertRecord record = .error e) :
    log_event (.ok ()) insertRecord record = .error e := by
  unfold log_event
  rw [h]

/-- Witness for the amended C9 theorem at a concrete failing insert. -/
theorem c9_insert_failure_propagates_witness :
    ((fun _ : QueryLogRecord =>
        (.error (.failure ("disk full".toList)) : Except DbError Int))
      ⟨[], [], [], [], [], [], [], [], false, none, none, none⟩
        = .error (.failure ("disk full".toList))) ∧
      log_event (.ok ())
          (fun _ => .error (.failure ("disk full".toList)))
          ⟨[], [], [], [], [], [], [], [], false, none, none, none⟩
        = .error (.failure ("disk full".toList)) :=
  ⟨rfl, c9_insert_failure_propagates
    (fun _ => .error (.failure ("disk full".toList)))
    ⟨[], [], [], [], [], [], [], [], false, none, none, none⟩
    (.failure ("disk full".toList)) rfl⟩

/-- Witness for C10 at a concrete accepted input. -/
theorem c10_safe_sql_single_semicolon_witness :
    ("SELECT 42 LIMIT 100;".toList.count ';' = 1 ∧
      "SELECT 42 LIMIT 100;".toList.getLast? = some ';' ∧
      prepare_for_execute ("SELECT 42 LIMIT 100;".toList)
        = .ok ("SELECT 42 LIMIT 100;".toList.dropLast)) :=
  c10_safe_sql_single_semicolon sqlglotModel ("SELECT 42".toList) 100
    ⟨"SELECT 42 LIMIT 100;".toList, true⟩ (by rfl)

end T2S
